import Mathlib

/-!
# Verification of the pattern-based markup migration engine

A shallow embedding, in Lean 4, of the JavaScript `MigrationEngine` class
(pattern compilation, template rendering, balanced container matching,
migration pipeline, markdown part-definition parsing and DOM-based
normalization), together with theorems settling the specification's claims
about it.

Strings are modelled as `List Char`; JavaScript string indices become `Nat`
indices into the list.  JavaScript regular expressions are modelled by an
explicit backtracking matcher (`RE` / `matchRE`) whose alternative order
mirrors the ECMAScript backtracking order, so that the compiled patterns and
the engine's literal regexes behave as in the source.  Several scanners use
an explicit fuel argument so that they are structurally recursive (and hence
evaluate inside the kernel); every wrapper supplies fuel that exceeds the
number of scanning steps, which each consume at least one character or
token.
-/

namespace Migration

/-- JavaScript whitespace (the ASCII part of `\s`, which also drives
`String.prototype.trim`). -/
def jsSpace (c : Char) : Bool :=
  c = ' ' || c = '\t' || c = '\n' || c = '\r' || c = '\x0b' || c = '\x0c'

/-- A `\w` word character: `[A-Za-z0-9_]`. -/
def wordChar (c : Char) : Bool :=
  ('a' ≤ c && c ≤ 'z') || ('A' ≤ c && c ≤ 'Z') || ('0' ≤ c && c ≤ '9') || c = '_'

/-- ASCII lower-casing, as `String.prototype.toLowerCase` acts on ASCII. -/
def lowerC (c : Char) : Char :=
  if 'A' ≤ c && c ≤ 'Z' then Char.ofNat (c.toNat + 32) else c

/-- Character comparison, optionally case-insensitive (the `i` regex flag). -/
def eqc (ci : Bool) (a b : Char) : Bool :=
  if ci then lowerC a = lowerC b else a = b

def lowerS (s : List Char) : List Char := s.map lowerC

/-- `String.prototype.trim`: strip whitespace from both ends. -/
def jsTrim (s : List Char) : List Char :=
  ((s.dropWhile jsSpace).reverse.dropWhile jsSpace).reverse

/-- `a.startsWith b` on character lists. -/
def startsWith : List Char → List Char → Bool
  | _, [] => true
  | [], _ :: _ => false
  | c :: s, d :: p => c = d && startsWith s p

/-- `String.prototype.split(/\r?\n/)`: split on `'\n'`, then drop one
trailing `'\r'` from each piece (a lone `'\r'` is not a separator). -/
def splitLines (s : List Char) : List (List Char) :=
  go s []
where
  go : List Char → List Char → List (List Char)
    | [], acc => [acc.reverse]
    | '\n' :: rest, acc =>
        (match acc with
         | '\r' :: acc' => acc'.reverse
         | _ => acc.reverse) :: go rest []
    | c :: rest, acc => go rest (c :: acc)

/-- One part definition: `{name, pattern}`. -/
structure Part where
  name : List Char
  pattern : List Char
deriving DecidableEq, Repr

/-! ## `parseMarkdownParts`

Line-oriented state machine translating the source's
`parseMarkdownParts(mdContent)`.  The accumulator `cur` mirrors
`currentPart` (`none` before the first `# ` heading); the flag `collecting`
mirrors `mode === 'pattern_content'`.  Finalization mirrors
`if (currentPart && currentPart.name && currentPart.pattern)`: both the name
and the **untrimmed** accumulated pattern must be non-empty (JS truthiness of
strings), and only then is the pattern trimmed and the part pushed. -/

/-- Finalize the current part, as at a `# ` line or at end of input. -/
def finalizePart (cur : Option Part) (parts : List Part) : List Part :=
  match cur with
  | none => parts
  | some p => if p.name ≠ [] ∧ p.pattern ≠ [] then
                parts ++ [⟨p.name, jsTrim p.pattern⟩]
              else parts

def parseMDLoop : List (List Char) → Option Part → Bool → List Part → List Part
  | [], cur, _, parts => finalizePart cur parts
  | line :: rest, cur, collecting, parts =>
    if startsWith line "# ".data then
      parseMDLoop rest (some ⟨jsTrim (line.drop 2), []⟩) false (finalizePart cur parts)
    else if startsWith line "## Pattern".data then
      parseMDLoop rest cur true parts
    else if collecting then
      match cur with
      | some p => parseMDLoop rest (some ⟨p.name, p.pattern ++ line ++ ['\n']⟩) collecting parts
      | none => parseMDLoop rest none collecting parts
    else
      parseMDLoop rest cur collecting parts

/-- `parseMarkdownParts(mdContent)`. -/
def parseMarkdownParts (mdContent : List Char) : List Part :=
  parseMDLoop (splitLines mdContent) none false []

/-! ## The target-part lookup of `migrate`

`targetParts.forEach(p => targetMap[p.name] = p.pattern)`: JS object
assignment, so a later part with the same name overwrites an earlier one. -/

/-- The `targetMap` built by `migrate`, as a name → pattern lookup. -/
def targetMap (targetParts : List Part) : List Char → Option (List Char) :=
  targetParts.foldl (fun m p => fun n => if n = p.name then some p.pattern else m n)
    (fun _ => none)

/-! ## The source-part ordering of `migrate`

`[...sourceParts].sort((a, b) => b.pattern.length - a.pattern.length)`:
a stable sort by descending pattern-string length (ECMAScript sorts are
stable), modelled by stable insertion sort. -/

/-- Insert while earlier elements have pattern length `≥` the new one
(stability: ties keep original order). -/
def insertByLen (x : Part) : List Part → List Part
  | [] => [x]
  | y :: ys => if x.pattern.length ≤ y.pattern.length then y :: insertByLen x ys
               else x :: y :: ys

/-- The sorted copy `sortedSourceParts` that `migrate` iterates over. -/
def sortParts : List Part → List Part
  | [] => []
  | x :: xs => insertByLen x (sortParts xs)

/-! ## A backtracking regular-expression matcher

The engine's regexes (the output of `compilePattern` and the literal regexes
of `renderTarget` and `findBalancedCloseIndex`) are modelled by an explicit
AST and a continuation-passing backtracking matcher whose alternative order
follows the ECMAScript semantics: greedy quantifiers try the body first,
lazy quantifiers try the continuation first, alternation tries the left arm
first, and a quantifier iteration that consumes nothing fails (the
ECMAScript empty-repetition check).  `(?!\s|>)[^"']` — a lookahead guarding
a single-character consumption — is folded into the equivalent character
class `[^\s>"']`.  Fuel bounds the number of matcher steps; all uses supply
ample fuel and every theorem that relies on a computed value evaluates it
concretely. -/

/-- A character-class atom: a single character, `\s`, or `\w`. -/
inductive ClsItem where
  | one (c : Char)
  | space
  | word
deriving DecidableEq, Repr

/-- Regular-expression AST (only the constructs the source uses). -/
inductive RE where
  | ch (c : Char)
  | cls (neg : Bool) (items : List ClsItem)
  | seq (rs : List RE)
  | alt (r1 r2 : RE)
  | star (r : RE) (lzy : Bool)
  | opt (r : RE) (lzy : Bool)
  | group (i : Nat) (r : RE)
  | backref (i : Nat)
deriving Repr

/-- Capture map: group index → captured characters (`none` = unset). -/
abbrev Caps := Nat → Option (List Char)

def noCaps : Caps := fun _ => none

def matchItem (ci : Bool) (d : Char) : ClsItem → Bool
  | .one c => eqc ci c d
  | .space => jsSpace d
  | .word => wordChar d

/-- Case-insensitive-aware prefix test, used for backreferences. -/
def isPrefOf (ci : Bool) : List Char → List Char → Bool
  | [], _ => true
  | _ :: _, [] => false
  | v :: vs, s :: ss => eqc ci v s && isPrefOf ci vs ss

/-- The backtracking matcher.  `k` is the success continuation receiving the
unconsumed suffix and the captures; the first success in ECMAScript
backtracking order wins. -/
def matchRE (ci : Bool) : Nat → RE → List Char → Caps →
    (List Char → Caps → Option (List Char × Caps)) → Option (List Char × Caps)
  | 0, _, _, _, _ => none
  | fuel + 1, re, s, caps, k =>
    match re with
    | .ch c =>
      match s with
      | [] => none
      | d :: s' => if eqc ci c d then k s' caps else none
    | .cls neg items =>
      match s with
      | [] => none
      | d :: s' => if (items.any (matchItem ci d)) ≠ neg then k s' caps else none
    | .seq [] => k s caps
    | .seq (r :: rs) =>
      matchRE ci fuel r s caps (fun s' caps' => matchRE ci fuel (.seq rs) s' caps' k)
    | .alt r1 r2 =>
      match matchRE ci fuel r1 s caps k with
      | some res => some res
      | none => matchRE ci fuel r2 s caps k
    | .star r lzy =>
      if lzy then
        match k s caps with
        | some res => some res
        | none => matchRE ci fuel r s caps (fun s' caps' =>
            if s'.length < s.length then matchRE ci fuel (.star r lzy) s' caps' k else none)
      else
        match matchRE ci fuel r s caps (fun s' caps' =>
            if s'.length < s.length then matchRE ci fuel (.star r lzy) s' caps' k else none) with
        | some res => some res
        | none => k s caps
    | .opt r lzy =>
      if lzy then
        match k s caps with
        | some res => some res
        | none => matchRE ci fuel r s caps k
      else
        match matchRE ci fuel r s caps k with
        | some res => some res
        | none => k s caps
    | .group i r =>
      matchRE ci fuel r s caps (fun s' caps' =>
        k s' (fun j => if j = i then some (s.take (s.length - s'.length)) else caps' j))
    | .backref i =>
      let v := (caps i).getD []
      if isPrefOf ci v s then k (s.drop v.length) caps else none

/-- Generous fuel for a search over `s`. -/
def bigFuel (s : List Char) : Nat := 2000 * (s.length + 10)

/-- Scan for the leftmost match at an index `≥ idx`; `suffix` is the text
from `idx` on.  Returns `(matchIndex, matchLength, captures)` — the
behaviour of `RegExp.prototype.exec` starting at `lastIndex = idx`. -/
def execSearch (ci : Bool) (re : RE) (fuel : Nat) : Nat → List Char → Option (Nat × Nat × Caps)
  | idx, suffix =>
    match matchRE ci fuel re suffix noCaps (fun s' caps => some (s', caps)) with
    | some (rest, caps) => some (idx, suffix.length - rest.length, caps)
    | none =>
      match suffix with
      | [] => none
      | _ :: t => execSearch ci re fuel (idx + 1) t

/-- `regex.exec(s)` with `regex.lastIndex = start`. -/
def execFrom (ci : Bool) (re : RE) (s : List Char) (start : Nat) : Option (Nat × Nat × Caps) :=
  execSearch ci re (bigFuel s) start (s.drop start)

/-- `regex.test(s)` on a fresh regex. -/
def regexTest (ci : Bool) (re : RE) (s : List Char) : Bool :=
  (execFrom ci re s 0).isSome

/-- `String.prototype.replace` with a global regex and a replacement
computed from the captures.  On an empty match the scan keeps the current
character and advances by one, as ECMAScript does. -/
def regexReplaceFrom (ci : Bool) (re : RE) (repl : Caps → List Char) (s : List Char) :
    Nat → Nat → List Char
  | 0, pos => s.drop pos
  | fuel + 1, pos =>
    match execFrom ci re s pos with
    | none => s.drop pos
    | some (idx, len, caps) =>
      (s.drop pos).take (idx - pos) ++ repl caps ++
        (if len = 0 then
          (s.drop idx).take 1 ++ regexReplaceFrom ci re repl s fuel (idx + 1)
        else
          regexReplaceFrom ci re repl s fuel (idx + len))

def regexReplace (ci : Bool) (re : RE) (repl : Caps → List Char) (s : List Char) : List Char :=
  regexReplaceFrom ci re repl s (s.length + 1) 0

/-! ## `compilePattern`

The source splits the template on `/({{\w+}})/g`, turns each placeholder
into the non-greedy capture `([\s\S]*?)`, and compiles each static chunk
character-wise after regex-escaping: a whitespace run becomes `\s*`, a
quote becomes `['"]`, and `>` becomes `\s*\/?>`.  Here the same regex is
built directly as an `RE` (escaping a character and then treating it as a
literal is the identity on the AST). -/

/-- Recognize a `{{\w+}}` token at the head; returns (name, rest). -/
def takeVarToken (s : List Char) : Option (List Char × List Char) :=
  match s with
  | c1 :: c2 :: rest =>
    if c1 = '{' ∧ c2 = '{' then
      let name := rest.takeWhile wordChar
      if name.isEmpty then none
      else
        match rest.drop name.length with
        | d1 :: d2 :: rest' => if d1 = '}' ∧ d2 = '}' then some (name, rest') else none
        | _ => none
    else none
  | _ => none

/-- `patternString.split(/({{\w+}})/g)`: alternating static chunks
(`Sum.inl`, empties omitted as the source's `forEach` skips them) and
placeholder names (`Sum.inr`).  Each step consumes at least one character,
so the wrapper's fuel is never exhausted. -/
def splitVarsF : Nat → List Char → List Char → List (Sum (List Char) (List Char))
  | 0, _, acc => if acc.isEmpty then [] else [Sum.inl acc.reverse]
  | fuel + 1, s, acc =>
    match takeVarToken s with
    | some (name, rest') =>
      (if acc.isEmpty then [] else [Sum.inl acc.reverse]) ++
        Sum.inr name :: splitVarsF fuel rest' []
    | none =>
      match s with
      | [] => if acc.isEmpty then [] else [Sum.inl acc.reverse]
      | c :: rest => splitVarsF fuel rest (c :: acc)

def splitVars (s : List Char) : List (Sum (List Char) (List Char)) :=
  splitVarsF (s.length + 1) s []

def spaceCls : RE := .cls false [.space]
/-- `\s*` (greedy). -/
def wsStar : RE := .star spaceCls false
/-- `\s+` (greedy), as one atom followed by a greedy star. -/
def wsPlus : RE := .seq [spaceCls, .star spaceCls false]
/-- `['"]`. -/
def quoteCls : RE := .cls false [.one '"', .one '\'']
/-- `[^>]`. -/
def notGt : RE := .cls true [.one '>']
/-- `[\s\S]`. -/
def anyC : RE := .cls true []
/-- `\w`. -/
def wordCls : RE := .cls false [.word]

/-- Compile one static chunk: whitespace runs → `\s*`, `"`/`'` → `['"]`,
`>` → `\s*\/?>`, everything else a literal. -/
def compileStaticF : Nat → List Char → List RE
  | 0, _ => []
  | _ + 1, [] => []
  | fuel + 1, c :: rest =>
    if jsSpace c then wsStar :: compileStaticF fuel (rest.dropWhile jsSpace)
    else if c = '"' ∨ c = '\'' then quoteCls :: compileStaticF fuel rest
    else if c = '>' then wsStar :: .opt (.ch '/') false :: .ch '>' :: compileStaticF fuel rest
    else .ch c :: compileStaticF fuel rest

def compileStatic (s : List Char) : List RE := compileStaticF (s.length + 1) s

/-- A compiled pattern: the regex and the placeholder names in order. -/
structure Compiled where
  re : RE
  vars : List (List Char)
deriving Repr

def compileParts : List (Sum (List Char) (List Char)) → Nat → List RE × List (List Char)
  | [], _ => ([], [])
  | Sum.inl st :: rest, i =>
    let (rs, vs) := compileParts rest i
    (compileStatic st ++ rs, vs)
  | Sum.inr v :: rest, i =>
    let (rs, vs) := compileParts rest (i + 1)
    (.group i (.star anyC true) :: rs, v :: vs)

/-- `compilePattern(patternString)`; capture groups are numbered 1, 2, …
in placeholder order, and the whole regex carries the `gi` flags (the
matcher is invoked case-insensitively). -/
def compilePattern (patternString : List Char) : Compiled :=
  let (rs, vs) := compileParts (splitVars patternString) 1
  ⟨.seq rs, vs⟩

/-! ## `renderTarget` -/

/-- Literal global replace (`String.prototype.replace` with a literal-only
global pattern): non-overlapping, left to right, replacements are not
rescanned.  (The source interpolates the placeholder key — a `\w+` name —
into a regex, so the pattern is literal; the replacement value is treated
literally, as none of the verified inputs contain `$`.)  Each step consumes
at least one character, so the wrapper's fuel is never exhausted. -/
def replaceLitF (pat repl : List Char) : Nat → List Char → List Char
  | 0, s => s
  | _ + 1, [] => []
  | fuel + 1, c :: rest =>
    if pat.isEmpty then c :: rest
    else if startsWith (c :: rest) pat then
      repl ++ replaceLitF pat repl fuel ((c :: rest).drop pat.length)
    else
      c :: replaceLitF pat repl fuel rest

def replaceLit (s pat repl : List Char) : List Char :=
  if pat.isEmpty then s else replaceLitF pat repl (s.length + 1) s

def lit (s : String) : List RE := s.data.map RE.ch

/-- `/{{\w+}}/` — leftover-placeholder cleanup (case-sensitive). -/
def varTokenRE : RE :=
  .seq [.ch '{', .ch '{', wordCls, .star wordCls false, .ch '}', .ch '}']

/-- `/<a\s+(?:[^>]*?\s+)?href=(["'])(?:\s*)\1[^>]*>([\s\S]*?)<\/a>/gi`,
replacement `$2`. -/
def anchorRe1 : RE := .seq
  ([.ch '<', .ch 'a', wsPlus,
    .opt (.seq [.star notGt true, wsPlus]) false] ++
   lit "href=" ++
   [.group 1 quoteCls, wsStar, .backref 1, .star notGt false, .ch '>',
    .group 2 (.star anyC true)] ++ lit "</a>")

/-- `[^\s>"']` — the folded form of `(?:(?!\s|>)[^"'])`. -/
def unqC : RE := .cls true [.space, .one '>', .one '"', .one '\'']

/-- `/<a\s+(?:[^>]*?\s+)?href=(?:(?!\s|>)[^"'])+[^>]*>([\s\S]*?)<\/a>/gi`,
replacement `$1`. -/
def anchorRe2 : RE := .seq
  ([.ch '<', .ch 'a', wsPlus,
    .opt (.seq [.star notGt true, wsPlus]) false] ++
   lit "href=" ++
   [unqC, .star unqC false, .star notGt false, .ch '>',
    .group 1 (.star anyC true)] ++ lit "</a>")

/-- `/<a\s+[^>]*href=["']["'][^>]*>([\s\S]*?)<\/a>/gi`, replacement `$1`. -/
def anchorRe3 : RE := .seq
  ([.ch '<', .ch 'a', wsPlus, .star notGt false] ++
   lit "href=" ++
   [quoteCls, quoteCls, .star notGt false, .ch '>',
    .group 1 (.star anyC true)] ++ lit "</a>")

/-- `renderTarget(patternString, data)`: substitute each binding, strip
leftover placeholder tokens, then apply the three empty-href anchor
rewrites in source order. -/
def renderTarget (patternString : List Char) (data : List (List Char × List Char)) :
    List Char :=
  let r0 := data.foldl
    (fun acc kv => replaceLit acc ('{' :: '{' :: (kv.1 ++ ['}', '}'])) kv.2) patternString
  let r1 := regexReplace false varTokenRE (fun _ => []) r0
  let r2 := regexReplace true anchorRe1 (fun caps => (caps 2).getD []) r1
  let r3 := regexReplace true anchorRe2 (fun caps => (caps 1).getD []) r2
  regexReplace true anchorRe3 (fun caps => (caps 1).getD []) r3

/-! ## `analyzeContainer` -/

/-- The full `{{\w+}}` tokens found by `pattern.match(/{{\w+}}/g)`, in
order (braces included). -/
def varTokensF : Nat → List Char → List (List Char)
  | 0, _ => []
  | _ + 1, [] => []
  | fuel + 1, c :: rest =>
    match takeVarToken (c :: rest) with
    | some (name, rest') => ('{' :: '{' :: (name ++ ['}', '}'])) :: varTokensF fuel rest'
    | none => varTokensF fuel rest

def varTokens (s : List Char) : List (List Char) := varTokensF (s.length + 1) s

/-- `s.split(sep)` with a literal separator (all our separators are
non-empty; an empty separator returns the input whole). -/
def splitOnLitF (sep : List Char) : Nat → List Char → List Char → List (List Char)
  | 0, acc, _ => [acc.reverse]
  | _ + 1, acc, [] => [acc.reverse]
  | fuel + 1, acc, c :: rest =>
    if sep.isEmpty then [acc.reverse ++ (c :: rest)]
    else if startsWith (c :: rest) sep then
      acc.reverse :: splitOnLitF sep fuel [] ((c :: rest).drop sep.length)
    else
      splitOnLitF sep fuel (c :: acc) rest

def splitOnLit (sep s : List Char) : List (List Char) := splitOnLitF sep (s.length + 1) [] s

/-- The result of a successful `analyzeContainer`:
`{tagName, startPattern, variable}`. -/
structure ContainerInfo where
  tagName : List Char
  startPattern : List Char
  varName : List Char
deriving DecidableEq, Repr

/-- Test of `^\s*<(\w+)` against the head fragment; returns the tag name. -/
def headTagOf (startStr : List Char) : Option (List Char) :=
  match startStr.dropWhile jsSpace with
  | '<' :: u =>
    let tag := u.takeWhile wordChar
    if tag.isEmpty then none else some tag
  | _ => none

/-- Test of `new RegExp("^\\s*<\\/" + tagName + "\\s*>\\s*$", 'i')` against
the tail fragment. -/
def isCloseFragment (tagName endStr : List Char) : Bool :=
  match endStr.dropWhile jsSpace with
  | '<' :: '/' :: u =>
    isPrefOf true tagName u &&
      (match (u.drop tagName.length).dropWhile jsSpace with
       | '>' :: tail => (tail.dropWhile jsSpace).isEmpty
       | _ => false)
  | _ => false

/-- `analyzeContainer(pattern)`: `none` models `{isContainer: false}`. -/
def analyzeContainer (pattern : List Char) : Option ContainerInfo :=
  match varTokens pattern with
  | [tok] =>
    match splitOnLit tok pattern with
    | [startStr, endStr] =>
      match headTagOf startStr with
      | some tagName =>
        if isCloseFragment tagName endStr then
          some ⟨tagName, startStr, tok.filter (fun c => ¬(c = '{' ∨ c = '}'))⟩
        else none
      | none => none
    | _ => none
  | _ => none

/-! ## Balanced matching -/

def indexOfGo (c : Char) : Nat → List Char → Option Nat
  | _, [] => none
  | i, d :: rest => if d = c then some i else indexOfGo c (i + 1) rest

/-- `html.indexOf(c, i0)`. -/
def indexOfFrom (c : Char) (html : List Char) (i0 : Nat) : Option Nat :=
  indexOfGo c i0 (html.drop i0)

/-- Does the open-tag token `<tag[\s>]` (case-insensitive) match at
position `i`? -/
def openTokAt (html : List Char) (i : Nat) (tag : List Char) : Bool :=
  match html.drop i with
  | '<' :: u =>
    isPrefOf true tag u &&
      (match u.drop tag.length with
       | d :: _ => jsSpace d || d = '>'
       | [] => false)
  | _ => false

/-- Length of the close-tag token `<\/tag\s*>` (case-insensitive) matching
at position `i`, if any. -/
def closeTokLenAt (html : List Char) (i : Nat) (tag : List Char) : Option Nat :=
  match html.drop i with
  | '<' :: '/' :: u =>
    if isPrefOf true tag u then
      let after := u.drop tag.length
      let ws := after.takeWhile jsSpace
      match after.drop ws.length with
      | '>' :: _ => some (2 + tag.length + ws.length + 1)
      | _ => none
    else none
  | _ => none

/-- The scan of `findBalancedCloseIndex`: one combined token regex
`(<tag[\s>])|(<\/tag\s*>)`, depth starts at 1, open increments, close
decrements; depth 0 at a close token returns that token's index. -/
def findBalancedGo (html tagName : List Char) : Nat → Nat → Nat → Option Nat
  | 0, _, _ => none
  | fuel + 1, i, depth =>
    if i ≥ html.length then none
    else if openTokAt html i tagName then
      findBalancedGo html tagName fuel (i + (1 + tagName.length + 1)) (depth + 1)
    else
      match closeTokLenAt html i tagName with
      | some len =>
        if depth = 1 then some i else findBalancedGo html tagName fuel (i + len) (depth - 1)
      | none => findBalancedGo html tagName fuel (i + 1) depth

def findBalancedClose (html : List Char) (fromIndex : Nat) (tagName : List Char) :
    Option Nat :=
  findBalancedGo html tagName (html.length + 1 - fromIndex) fromIndex 1

/-- One located top-level occurrence: `{start, end, content}`. -/
structure Span where
  start : Nat
  stop : Nat
  content : List Char
deriving DecidableEq, Repr

/-- The match-collection loop of `migrateBalanced`: repeated
`regex.exec`, balanced-close search, and the `lastIndex` discipline
(jump to `totalEndIndex` on success, the automatic advance past the prefix
match otherwise). -/
def findSpansLoop (html : List Char) (startRe : RE) (tagName : List Char) :
    Nat → Nat → List Span
  | 0, _ => []
  | fuel + 1, pos =>
    match execFrom true startRe html pos with
    | none => []
    | some (idx, len, _) =>
      let contentStart := idx + len
      match findBalancedClose html contentStart tagName with
      | some closeIdx =>
        let totalEnd :=
          match indexOfFrom '>' html closeIdx with
          | some j => j + 1
          | none => 0
        let content := (html.drop contentStart).take (closeIdx - contentStart)
        ⟨idx, totalEnd, content⟩ :: findSpansLoop html startRe tagName fuel totalEnd
      | none => findSpansLoop html startRe tagName fuel (idx + len)

/-- All top-level spans of a container in `html` (the `matches` array of
`migrateBalanced`). -/
def findTopLevel (html : List Char) (startRe : RE) (tagName : List Char) : List Span :=
  findSpansLoop html startRe tagName (html.length + 2) 0

def diffStart : List Char := "<!--__DIFF_START__-->".data
def diffEnd : List Char := "<!--__DIFF_END__-->".data

/-- The replacement phase of `migrateBalanced`: process spans from last to
first, splicing `<!--__DIFF_START__-->rendered<!--__DIFF_END__-->` at each
span's offsets. -/
def spliceSpans (tPattern varName : List Char) (spans : List Span) (html : List Char) :
    List Char :=
  spans.reverse.foldl
    (fun h m =>
      let newSnippet := renderTarget tPattern [(varName, m.content)]
      h.take m.start ++ (diffStart ++ newSnippet ++ diffEnd) ++ h.drop m.stop)
    html

/-- `migrateBalanced(html, sPart, tPattern, info)` (the `sPart` argument is
unused in the source body). -/
def migrateBalanced (html : List Char) (tPattern : List Char) (info : ContainerInfo) :
    List Char :=
  spliceSpans tPattern info.varName
    (findTopLevel html (compilePattern info.startPattern).re info.tagName) html

/-! ## The per-part loop of `migrate` -/

/-- JS object update: assign `k ↦ v`, keeping first-insertion key order. -/
def objAssign (m : List (List Char × List Char)) (k v : List Char) :
    List (List Char × List Char) :=
  if m.any (fun p => p.1 = k) then
    m.map (fun p => if p.1 = k then (k, v) else p)
  else m ++ [(k, v)]

/-- The replacement callback of the non-container branch: bind each
placeholder positionally (`args[i] || ''`), render, wrap in the change
delimiters. -/
def nonContainerReplace (html : List Char) (cp : Compiled) (tPattern : List Char) :
    List Char :=
  regexReplace true cp.re
    (fun caps =>
      let extracted := (List.range cp.vars.length).foldl
        (fun m i => objAssign m (cp.vars.getD i []) ((caps (i + 1)).getD [])) []
      diffStart ++ renderTarget tPattern extracted ++ diffEnd)
    html

/-- The per-part loop of `migrate` over the sorted source parts.  A part
whose name has no target pattern — or whose target pattern is the empty
string, which is falsy under `if (!tPattern)` — leaves the text untouched
and is recorded in `missing` iff its compiled pattern currently occurs. -/
def migrateLoop :
    List Part → (List Char → Option (List Char)) → List Char → List Part →
      List Char × List Part
  | [], _, html, missing => (html, missing)
  | p :: rest, tmap, html, missing =>
    match tmap p.name with
    | none =>
        migrateLoop rest tmap html
          (if regexTest true (compilePattern p.pattern).re html then
            missing ++ [⟨p.name, p.pattern⟩] else missing)
    | some tPattern =>
      if tPattern.isEmpty then
        migrateLoop rest tmap html
          (if regexTest true (compilePattern p.pattern).re html then
            missing ++ [⟨p.name, p.pattern⟩] else missing)
      else
        match analyzeContainer p.pattern with
        | some info => migrateLoop rest tmap (migrateBalanced html tPattern info) missing
        | none =>
          migrateLoop rest tmap
            (nonContainerReplace html (compilePattern p.pattern) tPattern) missing

/-! ## The DOM model

`cleanHtml` runs the working text through the browser DOM
(`div.innerHTML = s; …; return div.innerHTML`).  The DOM itself is not part
of the repository; per the spec it is a "pluggable permissive markup
parser" / serializer capability.  It is modelled here by node forests, a
permissive tokenizer/builder (`parseHtml`) and a serializer
(`serializeForest`) in the style of the HTML fragment algorithms: unmatched
close tags are dropped, elements left open are closed at end of input, void
elements take no children, tag and attribute names are lower-cased,
duplicate attributes keep the first occurrence, and text/attribute values
are entity-unescaped on parse and escaped on serialize.

A forest of DOM nodes is one (non-nested) inductive: `elemF tag attrs
children next` is an element node followed by its right siblings `next`. -/

inductive DTree where
  | nilF : DTree
  | elemF (tag : List Char) (attrs : List (List Char × List Char))
      (children : DTree) (next : DTree) : DTree
  | textF (s : List Char) (next : DTree) : DTree
  | commentF (s : List Char) (next : DTree) : DTree
deriving DecidableEq, Repr

/-- The void-element set of `recursiveRemoveEmpty` (also used by the
modelled parser to decide which elements take no children). -/
def voidTags : List (List Char) :=
  ["img", "br", "hr", "input", "meta", "link"].map String.data

/-- Serializer text escaping: `&`, `<`, `>`. -/
def escText (s : List Char) : List Char :=
  s.flatMap fun c =>
    if c = '&' then "&amp;".data
    else if c = '<' then "&lt;".data
    else if c = '>' then "&gt;".data
    else [c]

/-- Serializer attribute-value escaping: `&`, `"`. -/
def escAttr (s : List Char) : List Char :=
  s.flatMap fun c =>
    if c = '&' then "&amp;".data
    else if c = '"' then "&quot;".data
    else [c]

/-- After an `&`: the replacement character and the remaining input when a
known entity body follows, else `none`. -/
def entHead (y : List Char) : Option (Char × List Char) :=
  if startsWith y ['a', 'm', 'p', ';'] then some ('&', y.drop 4)
  else if startsWith y ['l', 't', ';'] then some ('<', y.drop 3)
  else if startsWith y ['g', 't', ';'] then some ('>', y.drop 3)
  else if startsWith y ['q', 'u', 'o', 't', ';'] then some ('"', y.drop 5)
  else if startsWith y ['#', '0', '3', '9', ';'] then some ('\'', y.drop 5)
  else none

/-- Entity unescaping on parse, fuelled (the entities the serializer and the
preview escaping produce; an `&` that heads no known entity stands for
itself). -/
def unescapeEntF : Nat → List Char → List Char
  | 0, s => s
  | _ + 1, [] => []
  | fuel + 1, c :: y =>
    if c = '&' then
      match entHead y with
      | some (d, rest) => d :: unescapeEntF fuel rest
      | none => '&' :: unescapeEntF fuel y
    else c :: unescapeEntF fuel y

/-- Entity unescaping on parse. -/
def unescapeEnt (s : List Char) : List Char := unescapeEntF (s.length + 1) s

/-- Serialize a forest (the `innerHTML` getter). -/
def serializeForest : DTree → List Char
  | .nilF => []
  | .elemF t a cs next =>
    '<' :: (t ++ a.flatMap (fun p => ' ' :: (p.1 ++ '=' :: '"' :: (escAttr p.2 ++ ['"']))) ++ ['>']) ++
      (if t ∈ voidTags then [] else serializeForest cs ++ ('<' :: '/' :: (t ++ ['>']))) ++
      serializeForest next
  | .textF s next => escText s ++ serializeForest next
  | .commentF s next => "<!--".data ++ s ++ "-->".data ++ serializeForest next

/-! ### Tokenizer -/

/-- One markup token. -/
inductive Tok where
  | tOpen (name : List Char) (attrs : List (List Char × List Char))
  | tClose (name : List Char)
  | tText (s : List Char)
  | tComment (s : List Char)
deriving DecidableEq, Repr

def tagChar (c : Char) : Bool := c.isAlpha || c.isDigit

def attrNameChar (c : Char) : Bool :=
  ¬(jsSpace c || c = '=' || c = '>' || c = '/')

/-- `(before, after)` around the first occurrence of `c`; `(s, [])` when
absent. -/
def breakAtChar (c : Char) : List Char → List Char × List Char
  | [] => ([], [])
  | d :: rest =>
    if d = c then ([], rest)
    else
      let (b, a) := breakAtChar c rest
      (d :: b, a)

/-- `(before, some after)` around the first occurrence of the literal
`pat`, or `(s, none)`. -/
def breakAtLit (pat : List Char) : List Char → List Char × Option (List Char)
  | [] => ([], none)
  | c :: rest =>
    if startsWith (c :: rest) pat then ([], some ((c :: rest).drop pat.length))
    else
      let (b, a) := breakAtLit pat rest
      (c :: b, a)

/-- Attribute-value scanning after a name: `="…"`, `='…'`, `=bare`, or no
value.  Returns `(value, rest)`. -/
def parseAttrValue (after : List Char) : List Char × List Char :=
  match after with
  | '=' :: '"' :: r3 => ((breakAtChar '"' r3).1, (breakAtChar '"' r3).2)
  | '=' :: '\'' :: r3 => ((breakAtChar '\'' r3).1, (breakAtChar '\'' r3).2)
  | '=' :: r2 =>
    (r2.takeWhile (fun d => ¬(jsSpace d || d = '>')),
     r2.drop (r2.takeWhile (fun d => ¬(jsSpace d || d = '>'))).length)
  | other => ([], other)

/-- Attribute scanning inside an open tag, up to the closing `>`.  Returns
the attributes (first occurrence of a duplicate name wins) and the text
after the `>`.  Each step consumes at least one character. -/
def parseAttrsF : Nat → List Char → List (List Char × List Char) →
    List (List Char × List Char) × List Char
  | 0, s, acc => (acc, s)
  | _ + 1, [], acc => (acc, [])
  | fuel + 1, c :: rest, acc =>
    if c = '>' then (acc, rest)
    else if jsSpace c || c = '/' then parseAttrsF fuel rest acc
    else
      let name := (c :: rest).takeWhile attrNameChar
      if name.isEmpty then
        -- stray character that cannot start a name: skipped
        parseAttrsF fuel rest acc
      else
        let pv := parseAttrValue ((c :: rest).drop name.length)
        let lname := lowerS name
        let acc' := if acc.any (fun p => p.1 = lname) then acc
                    else acc ++ [(lname, unescapeEnt pv.1)]
        parseAttrsF fuel pv.2 acc'

def parseAttrs (s : List Char) : List (List Char × List Char) × List Char :=
  parseAttrsF (s.length + 1) s []

/-- Is a new token starting here (rather than more text)?  `<` followed by
a letter, `/`, or the comment opener. -/
def isTagStart : List Char → Bool
  | c :: d :: rest =>
    c = '<' && (d.isAlpha || d = '/' || (d = '!' && startsWith (d :: rest) "!--".data))
  | _ => false

/-- Raw text up to the next token start. -/
def takeRawText : List Char → List Char × List Char
  | [] => ([], [])
  | c :: rest =>
    if isTagStart (c :: rest) then ([], c :: rest)
    else
      let (t, r) := takeRawText rest
      (c :: t, r)

/-- The tokenizer of the modelled permissive parser.  Each token consumes
at least one character. -/
def tokenizeF : Nat → List Char → List Tok
  | 0, _ => []
  | _ + 1, [] => []
  | fuel + 1, c :: rest =>
    if c = '<' ∧ startsWith rest "!--".data then
      -- comment
      match breakAtLit "-->".data (rest.drop 3) with
      | (content, some after) => .tComment content :: tokenizeF fuel after
      | (content, none) => [.tComment content]
    else if c = '<' ∧ rest.head? = some '/' then
      -- close tag (or bogus close, dropped); consumes through the next `>`
      let rest2 := rest.tail
      match breakAtLit ">".data rest2 with
      | (_, some after) =>
        let name := rest2.takeWhile tagChar
        if name.isEmpty then tokenizeF fuel after
        else .tClose (lowerS name) :: tokenizeF fuel after
      | (_, none) => []
    else if c = '<' ∧ (rest.head?.map Char.isAlpha).getD false = true then
      -- open tag
      let name := rest.takeWhile tagChar
      let pa := parseAttrs (rest.drop name.length)
      .tOpen (lowerS name) pa.1 :: tokenizeF fuel pa.2
    else
      let tr := takeRawText (c :: rest)
      if tr.1.isEmpty then [] else .tText (unescapeEnt tr.1) :: tokenizeF fuel tr.2

def tokenize (s : List Char) : List Tok := tokenizeF (s.length + 1) s

/-- Build a forest from tokens until the matching close tag (`stop`) or end
of input.  Unmatched close tags are dropped; void elements take no
children; elements left open at end of input are closed there.  Each step
consumes at least one token, so recursion depth is below the wrapper's
fuel. -/
def buildNodes : Nat → List Tok → Option (List Char) → DTree × List Tok
  | 0, toks, _ => (.nilF, toks)
  | _ + 1, [], _ => (.nilF, [])
  | fuel + 1, tok :: rest, stop =>
    match tok with
    | .tText s =>
      let r := buildNodes fuel rest stop
      (.textF s r.1, r.2)
    | .tComment s =>
      let r := buildNodes fuel rest stop
      (.commentF s r.1, r.2)
    | .tClose name =>
      if stop = some name then (.nilF, rest)
      else buildNodes fuel rest stop
    | .tOpen name attrs =>
      if name ∈ voidTags then
        let r := buildNodes fuel rest stop
        (.elemF name attrs .nilF r.1, r.2)
      else
        let rc := buildNodes fuel rest (some name)
        let rs := buildNodes fuel rc.2 stop
        (.elemF name attrs rc.1 rs.1, rs.2)

/-- The modelled permissive parse: the child forest that
`div.innerHTML = htmlString` produces. -/
def parseHtml (htmlString : List Char) : DTree :=
  (buildNodes ((tokenize htmlString).length + 1) (tokenize htmlString) none).1

/-! ## `recursiveRemoveEmpty` and `cleanHtml` -/

/-- The decorative tags kept only when attributed (`th`/`td` always kept). -/
def decorativeTags : List (List Char) :=
  ["span", "i", "em", "strong", "b", "th", "td"].map String.data

/-- Split a class attribute value on whitespace. -/
def splitOnWsF : Nat → List Char → List (List Char)
  | 0, _ => []
  | _ + 1, [] => []
  | fuel + 1, c :: rest =>
    if jsSpace c then splitOnWsF fuel rest
    else
      let w := (c :: rest).takeWhile (fun d => ¬jsSpace d)
      w :: splitOnWsF fuel ((c :: rest).drop w.length)

/-- `node.classList.contains('numbering-num')`. -/
def hasKeepClass (attrs : List (List Char × List Char)) : Bool :=
  match attrs.find? (fun p => p.1 = "class".data) with
  | some p => (splitOnWsF (p.2.length + 1) p.2).any (fun c => c = "numbering-num".data)
  | none => false

/-- `node.textContent` of a forest: concatenated text-node content
(comments excluded). -/
def textContent : DTree → List Char
  | .nilF => []
  | .elemF _ _ cs next => textContent cs ++ textContent next
  | .textF s next => s ++ textContent next
  | .commentF _ next => textContent next

/-- `node.children.length` of a forest: element nodes only. -/
def elemCount : DTree → Nat
  | .nilF => 0
  | .elemF _ _ _ next => elemCount next + 1
  | .textF _ next => elemCount next
  | .commentF _ next => elemCount next

/-- The keep/remove decision of `recursiveRemoveEmpty` for one element,
given its already-cleaned children: void tags, keep-marker class and
always-kept or attributed decorative tags survive; otherwise the element is
removed iff it has no element children and no non-whitespace text. -/
def keepElem (t : List Char) (a : List (List Char × List Char)) (cs' : DTree) : Bool :=
  if t ∈ voidTags then true
  else if hasKeepClass a then true
  else if t ∈ decorativeTags ∧ (t ∈ ["th".data, "td".data] ∨ a.length > 0) then true
  else ¬(elemCount cs' = 0 ∧ jsTrim (textContent cs') = [])

/-- `recursiveRemoveEmpty` over a forest: element children are cleaned
bottom-up and then possibly removed (`node.remove()`); text and comment
nodes are left in place. -/
def cleanForest : DTree → DTree
  | .nilF => .nilF
  | .elemF t a cs next =>
    let cs' := cleanForest cs
    if keepElem t a cs' then .elemF t a cs' (cleanForest next)
    else cleanForest next
  | .textF s next => .textF s (cleanForest next)
  | .commentF s next => .commentF s (cleanForest next)

/-- `cleanHtml(htmlString)`: parse into a detached `div`, run
`recursiveRemoveEmpty`, read back `innerHTML`.  (The wrapper `div` itself
is detached, so its own `remove()` is a no-op.) -/
def cleanHtml (htmlString : List Char) : List Char :=
  serializeForest (cleanForest (parseHtml htmlString))

/-! ### Auxiliary notions for the normalization idempotence proof -/

/-- Forest concatenation (append at the sibling level). -/
def appendF : DTree → DTree → DTree
  | .nilF, u => u
  | .elemF t a cs next, u => .elemF t a cs (appendF next u)
  | .textF s next, u => .textF s (appendF next u)
  | .commentF s next, u => .commentF s (appendF next u)

/-- The token stream a well-formed forest serializes to. -/
def forestToks : DTree → List Tok
  | .nilF => []
  | .elemF t a cs next =>
    .tOpen t a :: ((if t ∈ voidTags then [] else forestToks cs ++ [.tClose t]) ++ forestToks next)
  | .textF s next => .tText s :: forestToks next
  | .commentF s next => .tComment s :: forestToks next

/-- Merge adjacent text nodes (re-parsing a serialized forest fuses them). -/
def mergeT : DTree → DTree
  | .nilF => .nilF
  | .elemF t a cs next => .elemF t a (mergeT cs) (mergeT next)
  | .commentF s next => .commentF s (mergeT next)
  | .textF s next =>
    match mergeT next with
    | .textF s2 next2 => .textF (s ++ s2) next2
    | other => .textF s other

/-- The forest does not begin with a text node. -/
def notText : DTree → Prop
  | .textF _ _ => False
  | _ => True

/-- Does `s` contain the literal `pat`? -/
def containsLit (pat s : List Char) : Bool := (breakAtLit pat s).2.isSome

/-- A well-formed attribute name: what the attribute scanner can produce
and re-read. -/
def wfName (n : List Char) : Prop :=
  n ≠ [] ∧ n.all attrNameChar = true ∧ lowerS n = n

/-- A well-formed tag name: non-empty, letter-initial, alphanumeric,
lower-case. -/
def wfTag (t : List Char) : Prop :=
  (∃ c r, t = c :: r ∧ c.isAlpha = true) ∧ t.all tagChar = true ∧ lowerS t = t

/-- Well-formed attribute lists: well-formed, pairwise-distinct names. -/
def wfAttrs (a : List (List Char × List Char)) : Prop :=
  (∀ p ∈ a, wfName p.1) ∧ (a.map Prod.fst).Pairwise (· ≠ ·)

/-- Well-formed tokens (what `tokenize` can produce). -/
def wfTok : Tok → Prop
  | .tOpen t a => wfTag t ∧ wfAttrs a
  | .tClose _ => True
  | .tText s => s ≠ []
  | .tComment s => containsLit "-->".data s = false

/-- Well-formed forests.  With `sep = true` adjacent text nodes are also
ruled out (the shape re-parsing a serialization always yields). -/
def wfF (sep : Bool) : DTree → Prop
  | .nilF => True
  | .elemF t a cs next => wfTag t ∧ wfAttrs a ∧ (t ∈ voidTags → cs = .nilF) ∧
      wfF sep cs ∧ wfF sep next
  | .textF s next => s ≠ [] ∧ (sep = true → notText next) ∧ wfF sep next
  | .commentF s next => containsLit "-->".data s = false ∧ wfF sep next

/-- `buildNodes` at its canonical fuel. -/
def buildAll (toks : List Tok) (stop : Option (List Char)) : DTree × List Tok :=
  buildNodes (toks.length + 1) toks stop

/-- What may follow a serialized forest without merging into it: end of
input or another token start. -/
def restOK (r : List Char) : Prop := r = [] ∨ isTagStart r = true

/-- The serialized form of an attribute list (the part of an open tag after
the name). -/
def attrsText (ps : List (List Char × List Char)) : List Char :=
  ps.flatMap fun p => ' ' :: (p.1 ++ '=' :: '"' :: (escAttr p.2 ++ ['"']))

/-- Element-node count of a whole forest (all depths); element removal
strictly decreases it. -/
def tsize : DTree → Nat
  | .nilF => 0
  | .elemF _ _ cs next => tsize cs + tsize next + 1
  | .textF _ next => tsize next
  | .commentF _ next => tsize next

/-! ## The tail of `migrate`: code and preview outputs -/

/-- Strip the change delimiters
(`.replace(/<!--__DIFF_START__-->|<!--__DIFF_END__-->/g, '')`). -/
def stripMarkersF : Nat → List Char → List Char
  | 0, s => s
  | _ + 1, [] => []
  | fuel + 1, c :: rest =>
    if startsWith (c :: rest) diffStart then
      stripMarkersF fuel ((c :: rest).drop diffStart.length)
    else if startsWith (c :: rest) diffEnd then
      stripMarkersF fuel ((c :: rest).drop diffEnd.length)
    else c :: stripMarkersF fuel rest

def stripMarkers (s : List Char) : List Char := stripMarkersF (s.length + 1) s

/-- The preview text escaping (the five sequential global replaces,
equivalently a character map since no later pattern occurs in an earlier
replacement's output). -/
def escapeHtml (s : List Char) : List Char :=
  s.flatMap fun c =>
    if c = '&' then "&amp;".data
    else if c = '<' then "&lt;".data
    else if c = '>' then "&gt;".data
    else if c = '"' then "&quot;".data
    else if c = '\'' then "&#039;".data
    else [c]

/-- Split on the delimiters keeping them
(`split(/(<!--__DIFF_START__-->|<!--__DIFF_END__-->)/g)`), already mapped:
delimiters become highlight span tags, other pieces are escaped. -/
def buildPreviewF : Nat → List Char → List Char
  | 0, s => s
  | _ + 1, [] => []
  | fuel + 1, c :: rest =>
    if startsWith (c :: rest) diffStart then
      "<span class=\"diff-highlight\">".data ++ buildPreviewF fuel ((c :: rest).drop diffStart.length)
    else if startsWith (c :: rest) diffEnd then
      "</span>".data ++ buildPreviewF fuel ((c :: rest).drop diffEnd.length)
    else escapeHtml [c] ++ buildPreviewF fuel rest

def buildPreview (s : List Char) : List Char := buildPreviewF (s.length + 1) s

/-- `{code, preview, missing}`. -/
structure MigrationResult where
  code : List Char
  preview : List Char
  missing : List Part
deriving Repr

/-- `migrate(sourceHtml, sourceParts, targetParts)`. -/
def migrate (sourceHtml : List Char) (sourceParts targetParts : List Part) :
    MigrationResult :=
  let r := migrateLoop (sortParts sourceParts) (targetMap targetParts) sourceHtml []
  let cleaned := cleanHtml r.1
  let codeOutput :=
    replaceLit (replaceLit (stripMarkers cleaned) "--&gt;".data "-->".data)
      "&lt;!--".data "<!--".data
  ⟨codeOutput, buildPreview cleaned, r.2⟩

/-! ## A store-passing rendering of `migrate` for the frame property

JavaScript arrays are heap references; `migrate` receives `sourceParts` and
`targetParts` by reference and sorting is done in place on a spread copy
(`[...sourceParts].sort(...)`).  To state the frame property the arrays are
placed in an explicit store: `migrateHeap` performs exactly the store
operations of the source (read the argument arrays, allocate the copy, sort
the copy in place) and returns the final store alongside the result. -/

abbrev Store := List (List Part)

def storeRead (st : Store) (r : Nat) : List Part := (st[r]?).getD []

def storeWrite (st : Store) (r : Nat) (v : List Part) : Store := st.set r v

def storeAlloc (st : Store) (v : List Part) : Store × Nat :=
  (st ++ [v], st.length)

/-- `migrate` with its array arguments as store references. -/
def migrateHeap (st : Store) (srcRef tgtRef : Nat) (sourceHtml : List Char) :
    Store × MigrationResult :=
  let src := storeRead st srcRef
  let a := storeAlloc st src
  let st2 := storeWrite a.1 a.2 (sortParts (storeRead a.1 a.2))
  let sortedSourceParts := storeRead st2 a.2
  let r := migrateLoop sortedSourceParts (targetMap (storeRead st2 tgtRef)) sourceHtml []
  let cleaned := cleanHtml r.1
  (st2,
   ⟨replaceLit (replaceLit (stripMarkers cleaned) "--&gt;".data "-->".data)
      "&lt;!--".data "<!--".data,
    buildPreview cleaned, r.2⟩)

end Migration

namespace Migration

/-! # Claim theorems

## C2 — name lookup with duplicate target-part names -/

theorem targetMap_foldl_eq (ps : List Part) (m : List Char → Option (List Char))
    (n : List Char) :
    ps.foldl (fun m p => fun x => if x = p.name then some p.pattern else m x) m n =
      match ps.reverse.find? (fun p => p.name = n) with
      | some p => some p.pattern
      | none => m n := by
  induction ps generalizing m with
  | nil => simp
  | cons p rest ih =>
    simp only [List.foldl_cons, List.reverse_cons, List.find?_append]
    rw [ih]
    cases hf : rest.reverse.find? (fun q => decide (q.name = n)) with
    | some q => simp [hf, Option.or]
    | none =>
      simp only [hf, Option.none_or]
      by_cases hn : p.name = n
      · simp [List.find?, hn]
      · have hn' : ¬ n = p.name := fun h => hn h.symm
        simp [List.find?, hn, hn']

/-- Claim C2 (amended): when target-part names collide, the lookup built by
`migrate` resolves a name to the **last** matching entry of `targetParts`
(object assignment overwrites), not the first. -/
theorem C2_last_match_wins (targetParts : List Part) (n : List Char) :
    targetMap targetParts n =
      (targetParts.reverse.find? (fun p => p.name = n)).map Part.pattern := by
  unfold targetMap
  rw [targetMap_foldl_eq]
  cases targetParts.reverse.find? (fun p => decide (p.name = n)) <;> simp

/-- Claim C2, counterexample: with two target parts both named `a`, the
first match has pattern `p1` but the map `migrate` builds resolves `a` to
`p2`, the last one. -/
theorem C2_counterexample :
    targetMap [⟨"a".data, "p1".data⟩, ⟨"a".data, "p2".data⟩] "a".data =
      some "p2".data ∧
    (List.find? (fun p => p.name = "a".data)
        [(⟨"a".data, "p1".data⟩ : Part), ⟨"a".data, "p2".data⟩]).map Part.pattern =
      some "p1".data ∧
    ("p2".data : List Char) ≠ "p1".data := by
  refine ⟨by decide, by decide, by decide⟩

/-! ## C3 — which parts `parseMarkdownParts` keeps -/

theorem dropWhile_dropWhile (p : Char → Bool) (l : List Char) :
    (l.dropWhile p).dropWhile p = l.dropWhile p := by
  induction l with
  | nil => simp
  | cons c t ih =>
    by_cases hc : p c
    · simpa [List.dropWhile, hc] using ih
    · simp [List.dropWhile, hc]

theorem head_dropWhile (p : Char → Bool) (l : List Char) {c : Char} {rest : List Char}
    (h : l.dropWhile p = c :: rest) : p c = false := by
  induction l with
  | nil => simp [List.dropWhile] at h
  | cons d t ih =>
    by_cases hd : p d
    · exact ih (by simpa [List.dropWhile, hd] using h)
    · simp only [List.dropWhile, hd] at h
      cases h
      simpa using hd

/-- Right-trim is a prefix: `a = rtrim a ++ (dropped whitespace)`. -/
theorem rtrim_append (p : Char → Bool) (a : List Char) :
    (a.reverse.dropWhile p).reverse ++ (a.reverse.takeWhile p).reverse = a := by
  have h := List.takeWhile_append_dropWhile (p := p) (l := a.reverse)
  calc (a.reverse.dropWhile p).reverse ++ (a.reverse.takeWhile p).reverse
      = (a.reverse.takeWhile p ++ a.reverse.dropWhile p).reverse := by
        rw [List.reverse_append]
    _ = a.reverse.reverse := by rw [h]
    _ = a := a.reverse_reverse

theorem jsTrim_idem (s : List Char) : jsTrim (jsTrim s) = jsTrim s := by
  have key : ∀ a : List Char, a.dropWhile jsSpace = a →
      jsTrim ((a.reverse.dropWhile jsSpace).reverse) =
        (a.reverse.dropWhile jsSpace).reverse := by
    intro a hafix
    have hba := rtrim_append jsSpace a
    cases hcb : (a.reverse.dropWhile jsSpace).reverse with
    | nil => simp [jsTrim, hcb]
    | cons c rest =>
      have hae : a = c :: (rest ++ (a.reverse.takeWhile jsSpace).reverse) := by
        nth_rewrite 1 [← hba]
        rw [hcb]
        simp
      have hpc : jsSpace c = false :=
        head_dropWhile jsSpace a (by rw [hafix]; exact hae)
      have hrev : (c :: rest).reverse = a.reverse.dropWhile jsSpace := by
        rw [← hcb, List.reverse_reverse]
      have hstep : (c :: rest).dropWhile jsSpace = c :: rest := by
        simp [List.dropWhile, hpc]
      unfold jsTrim
      rw [hstep, hrev, dropWhile_dropWhile, ← hrev, List.reverse_reverse]
  exact key (s.dropWhile jsSpace) (dropWhile_dropWhile jsSpace s)

/-- The invariant carried by the `parseMarkdownParts` result list. -/
def partsInv (ps : List Part) : Prop :=
  ∀ p ∈ ps, p.name ≠ [] ∧ jsTrim p.pattern = p.pattern

theorem finalizePart_inv {cur : Option Part} {parts : List Part}
    (h : partsInv parts) : partsInv (finalizePart cur parts) := by
  cases cur with
  | none => exact h
  | some q =>
    simp only [finalizePart]
    split
    · intro p hp
      rcases List.mem_append.mp hp with hin | hnew
      · exact h p hin
      · rcases List.mem_singleton.mp hnew with rfl
        rename_i hg
        exact ⟨hg.1, jsTrim_idem _⟩
    · exact h

theorem parseMDLoop_inv :
    ∀ (lines : List (List Char)) (cur : Option Part) (collecting : Bool)
      (parts : List Part), partsInv parts →
      partsInv (parseMDLoop lines cur collecting parts) := by
  intro lines
  induction lines with
  | nil => intro cur collecting parts h; exact finalizePart_inv h
  | cons line rest ih =>
    intro cur collecting parts h
    simp only [parseMDLoop]
    repeat' split
    all_goals first
      | exact ih _ _ _ (finalizePart_inv h)
      | exact ih _ _ _ h

/-- Claim C3 (amended): every part `parseMarkdownParts` returns has a
non-empty name and an already-trimmed pattern; the trimmed pattern may be
**empty** (the finalize guard tests the untrimmed body, so a
whitespace-only body is kept and stored as the empty pattern). -/
theorem C3_kept_parts (mdContent : List Char) (p : Part)
    (hp : p ∈ parseMarkdownParts mdContent) :
    p.name ≠ [] ∧ jsTrim p.pattern = p.pattern := by
  have := parseMDLoop_inv (splitLines mdContent) none false [] (by intro q hq; cases hq)
  exact this p hp

/-- Witness for `C3_kept_parts` at a concrete document. -/
theorem C3_kept_parts_witness :
    ("A".data : List Char) ≠ [] ∧ jsTrim "<b>x</b>".data = "<b>x</b>".data :=
  C3_kept_parts "# A\n## Pattern\n<b>x</b>\n".data ⟨"A".data, "<b>x</b>".data⟩ (by decide)

/-- Claim C3, counterexample: a document whose pattern body is a single
blank line.  The finalize check tests the **untrimmed** body (`"\n"`,
truthy), so the part is appended — with empty trimmed pattern —
contradicting "appended if and only if … trimmed pattern … non-empty" and
"every PartDefinition returned has … a non-empty (trimmed) pattern". -/
theorem C3_counterexample :
    parseMarkdownParts "# N\n## Pattern\n".data = [⟨"N".data, []⟩] ∧
    ¬ (∀ p ∈ parseMarkdownParts "# N\n## Pattern\n".data, p.pattern ≠ []) := by
  refine ⟨by decide, by decide⟩

/-! ## C9 — processing order of source parts -/

/-- The concatenated static text of a pattern (the non-placeholder chunks
of the `compilePattern` split). -/
def staticText (p : List Char) : List Char :=
  (splitVars p).foldl
    (fun acc piece => match piece with
      | Sum.inl st => acc ++ st
      | Sum.inr _ => acc) []

theorem mem_insertByLen {x z : Part} {l : List Part} :
    z ∈ insertByLen x l ↔ z = x ∨ z ∈ l := by
  induction l with
  | nil => simp [insertByLen]
  | cons y ys ih =>
    simp only [insertByLen]
    split
    · simp only [List.mem_cons, ih]
      tauto
    · simp only [List.mem_cons]

def lenGE (a b : Part) : Prop := b.pattern.length ≤ a.pattern.length

theorem pairwise_insertByLen {x : Part} {l : List Part} (h : l.Pairwise lenGE) :
    (insertByLen x l).Pairwise lenGE := by
  induction l with
  | nil => simp [insertByLen]
  | cons y ys ih =>
    simp only [insertByLen]
    split
    · rename_i hle
      have hy := List.pairwise_cons.mp h
      refine List.pairwise_cons.mpr ⟨?_, ih hy.2⟩
      intro z hz
      rcases mem_insertByLen.mp hz with rfl | hzys
      · exact hle
      · exact hy.1 z hzys
    · rename_i hgt
      refine List.pairwise_cons.mpr ⟨?_, h⟩
      intro z hz
      have hy := List.pairwise_cons.mp h
      rcases List.mem_cons.mp hz with rfl | hzys
      · simp only [lenGE]
        omega
      · have := hy.1 z hzys
        simp only [lenGE] at *
        omega

theorem sortParts_pairwise (l : List Part) : (sortParts l).Pairwise lenGE := by
  induction l with
  | nil => simp [sortParts]
  | cons x xs ih => exact pairwise_insertByLen ih

/-- Claim C9 (amended): `migrate` processes source parts in descending
order of **full pattern-string** length; consequently if part A's full
pattern string strictly contains part B's full pattern string, A is
attempted before B.  (The containment consequence fails for *static text*,
because placeholder tokens count toward the sorted length — see the
counterexample.) -/
theorem C9_sorted_by_pattern_length (sourceParts : List Part) :
    (sortParts sourceParts).Pairwise lenGE ∧
    ∀ (i j : Fin (sortParts sourceParts).length),
      ((sortParts sourceParts).get j).pattern ≠ ((sortParts sourceParts).get i).pattern →
      (∃ pre post, pre ++ ((sortParts sourceParts).get j).pattern ++ post =
        ((sortParts sourceParts).get i).pattern) →
      i < j := by
  refine ⟨sortParts_pairwise _, ?_⟩
  intro i j hne hsub
  obtain ⟨pre, post, hsplit⟩ := hsub
  have hlen : ((sortParts sourceParts).get j).pattern.length <
      ((sortParts sourceParts).get i).pattern.length := by
    have hl := congrArg List.length hsplit
    simp only [List.length_append] at hl
    rcases Nat.lt_or_ge 0 (pre.length + post.length) with hpos | hz
    · omega
    · exfalso
      have hp : pre = [] := by
        cases pre with
        | nil => rfl
        | cons _ _ => simp at hz
      have hq : post = [] := by
        cases post with
        | nil => rfl
        | cons _ _ => simp at hz
      subst hp; subst hq
      simp at hsplit
      exact hne hsplit
  rcases lt_trichotomy i j with h | h | h
  · exact h
  · exfalso; subst h; omega
  · exfalso
    have := List.pairwise_iff_get.mp (sortParts_pairwise sourceParts) j i h
    simp only [lenGE] at this
    omega

/-- Witness for `C9_sorted_by_pattern_length` at a concrete part list:
`hi` is strictly contained in `<b>hi</b>`, so the part with the longer
pattern sorts first. -/
theorem C9_sorted_witness :
    (⟨0, by decide⟩ : Fin (sortParts [⟨"x".data, "<b>hi</b>".data⟩,
        ⟨"y".data, "hi".data⟩]).length) < ⟨1, by decide⟩ :=
  (C9_sorted_by_pattern_length [⟨"x".data, "<b>hi</b>".data⟩, ⟨"y".data, "hi".data⟩]).2
    ⟨0, by decide⟩ ⟨1, by decide⟩ (by decide) ⟨"<b>".data, "</b>".data, by decide⟩

/-- Claim C9, counterexample: part B's *static text* (`hi`) is strictly
contained in part A's static text (`<b>hi</b>`), yet B's full pattern
string (with its long placeholder token) is longer, so the sorted order
processes **B before A** — against "if source pattern A's static text
strictly contains source pattern B's static text, then A is attempted
before B". -/
theorem C9_counterexample :
    sortParts [⟨"A".data, "<b>hi</b>".data⟩, ⟨"B".data, "{{aaaaaaaaaaaa}}hi".data⟩] =
      [⟨"B".data, "{{aaaaaaaaaaaa}}hi".data⟩, ⟨"A".data, "<b>hi</b>".data⟩] ∧
    ("<b>".data ++ staticText "{{aaaaaaaaaaaa}}hi".data ++ "</b>".data =
      staticText "<b>hi</b>".data) ∧
    staticText "{{aaaaaaaaaaaa}}hi".data ≠ staticText "<b>hi</b>".data := by
  refine ⟨by decide, by decide, by decide⟩

/-! ## C7 — source parts with no same-named target part -/

theorem targetMap_eq_none_iff (ps : List Part) (n : List Char) :
    targetMap ps n = none ↔ ∀ p ∈ ps, p.name ≠ n := by
  rw [C2_last_match_wins]
  cases hf : ps.reverse.find? (fun p => p.name = n) with
  | some q =>
    constructor
    · intro hmap
      simp at hmap
    · intro hall
      exfalso
      have hq := List.find?_some hf
      have hmem : q ∈ ps.reverse := List.mem_of_find?_eq_some hf
      exact hall q (List.mem_reverse.mp hmem) (by simpa using hq)
  | none =>
    constructor
    · intro _ p hp
      have := List.find?_eq_none.mp hf p (List.mem_reverse.mpr hp)
      simpa using this
    · intro _
      simp

/-- Claim C7: processing a source part whose name has no same-named entry
among `targetParts` leaves the working text untouched, appends exactly one
`{name, pattern}` entry to `missing` iff the part's compiled pattern
occurs in the current working text, and migration continues over the
remaining parts. -/
theorem C7_missing_mapping (rest targetParts : List Part) (html : List Char)
    (missing : List Part) (sPart : Part)
    (hnone : ∀ t ∈ targetParts, t.name ≠ sPart.name) :
    migrateLoop (sPart :: rest) (targetMap targetParts) html missing =
      migrateLoop rest (targetMap targetParts) html
        (if regexTest true (compilePattern sPart.pattern).re html then
          missing ++ [⟨sPart.name, sPart.pattern⟩] else missing) := by
  have hmap : targetMap targetParts sPart.name = none :=
    (targetMap_eq_none_iff _ _).mpr hnone
  simp only [migrateLoop, hmap]

/-- Witness for `C7_missing_mapping`: a bold part present in the input but
absent from the target parts is recorded once and the text is unchanged. -/
theorem C7_missing_mapping_witness :
    migrateLoop [⟨"bold".data, "<b>{{t}}</b>".data⟩]
        (targetMap [⟨"other".data, "<p>{{t}}</p>".data⟩]) "a <b>Hi</b> b".data [] =
      migrateLoop [] (targetMap [⟨"other".data, "<p>{{t}}</p>".data⟩]) "a <b>Hi</b> b".data
        (if regexTest true (compilePattern "<b>{{t}}</b>".data).re "a <b>Hi</b> b".data then
          [] ++ [⟨"bold".data, "<b>{{t}}</b>".data⟩] else []) :=
  C7_missing_mapping [] [⟨"other".data, "<p>{{t}}</p>".data⟩] "a <b>Hi</b> b".data []
    ⟨"bold".data, "<b>{{t}}</b>".data⟩ (by decide)

/-! ## C1 — the empty-href anchor unwrap of `renderTarget` -/

/-- Claim C1, counterexample: an anchor whose `href` has a non-empty
(unquoted) value is **not** left intact — the second anchor rewrite of
`renderTarget` unwraps it to its inner content. -/
theorem C1_counterexample :
    renderTarget "<a href=x>Y</a>".data [] = "Y".data ∧
    ("Y".data : List Char) ≠ "<a href=x>Y</a>".data := by
  refine ⟨by decide, by decide⟩

/-- Claim C1 (amended): `renderTarget` unwraps an anchor to its inner
content when its `href` value is an empty or whitespace-only quoted string,
or a non-empty unquoted value; an anchor whose `href` is a non-empty quoted
string, or a bare `href` attribute with no `=` at all, is left intact.
Rendering `<a href="{{url}}">{{text}}</a>` with `url=""`, `text="Click"`
yields exactly `Click`. -/
theorem C1_anchor_unwrap_behaviour :
    renderTarget "<a href=\"{{url}}\">{{text}}</a>".data
        [("url".data, []), ("text".data, "Click".data)] = "Click".data ∧
    renderTarget "<a href=\"\">Y</a>".data [] = "Y".data ∧
    renderTarget "<a href=\" \">Y</a>".data [] = "Y".data ∧
    renderTarget "<a href=x>Y</a>".data [] = "Y".data ∧
    renderTarget "<a href>Y</a>".data [] = "<a href>Y</a>".data ∧
    renderTarget "<a href=\"u\">Y</a>".data [] = "<a href=\"u\">Y</a>".data := by
  refine ⟨by decide, by decide, by decide, by decide, by decide, by decide⟩

/-! ## C4 — `normalize` on empty and decorated spans -/

/-- Claim C4, counterexample: `normalize('<span class="icon"></span>')` is
**retained**, not removed — `class="icon"` is an attribute, and an
attributed decorative tag is kept regardless of which class it is. -/
theorem C4_counterexample :
    cleanHtml "<span class=\"icon\"></span>".data = "<span class=\"icon\"></span>".data ∧
    cleanHtml "<span class=\"icon\"></span>".data ≠ [] := by
  refine ⟨by decide, by decide⟩

/-- Claim C4 (amended): `normalize("<span></span>")` is the empty string;
`normalize('<span class="icon"></span>')` keeps the span (any attribute —
the keep-marker class is not required); and
`normalize('<span data-x="1"></span>')` keeps the span. -/
theorem C4_span_normalization :
    cleanHtml "<span></span>".data = [] ∧
    cleanHtml "<span class=\"icon\"></span>".data = "<span class=\"icon\"></span>".data ∧
    cleanHtml "<span data-x=\"1\"></span>".data = "<span data-x=\"1\"></span>".data := by
  refine ⟨by decide, by decide, by decide⟩

/-! ## C5 — balanced capture of a nested same-tag container -/

/-- Claim C5: for the container pattern `<div class="a">{{content}}</div>`
over `<div class="a"><div class="a">X</div>Y</div>`, the balanced matcher
reports one span capturing exactly `<div class="a">X</div>Y` — the whole
balanced content, not a truncated inner match. -/
theorem C5_balanced_capture :
    analyzeContainer "<div class=\"a\">{{content}}</div>".data =
      some ⟨"div".data, "<div class=\"a\">".data, "content".data⟩ ∧
    (findTopLevel "<div class=\"a\"><div class=\"a\">X</div>Y</div>".data
        (compilePattern "<div class=\"a\">".data).re "div".data).map Span.content =
      ["<div class=\"a\">X</div>Y".data] := by
  refine ⟨by decide, by decide⟩

/-! ## C6 — top-level spans are ordered and non-overlapping -/

theorem execSearch_idx_ge {ci : Bool} {re : RE} {fuel : Nat} :
    ∀ {suffix : List Char} {idx i len : Nat} {caps : Caps},
      execSearch ci re fuel idx suffix = some (i, len, caps) → idx ≤ i := by
  intro suffix
  induction suffix with
  | nil =>
    intro idx i len caps h
    simp only [execSearch] at h
    split at h
    · rename_i rest caps' heq
      simp only [Option.some.injEq, Prod.mk.injEq] at h
      omega
    · simp at h
  | cons c t ih =>
    intro idx i len caps h
    simp only [execSearch] at h
    split at h
    · rename_i rest caps' heq
      simp only [Option.some.injEq, Prod.mk.injEq] at h
      omega
    · exact Nat.le_of_succ_le (ih h)

theorem execFrom_idx_ge {ci : Bool} {re : RE} {s : List Char} {start i len : Nat}
    {caps : Caps} (h : execFrom ci re s start = some (i, len, caps)) : start ≤ i :=
  execSearch_idx_ge h

theorem closeTok_gt_exists {html : List Char} {i : Nat} {tag : List Char} {len : Nat}
    (h : closeTokLenAt html i tag = some len) :
    ∃ k rest, i ≤ k ∧ html.drop k = '>' :: rest := by
  simp only [closeTokLenAt] at h
  split at h
  · rename_i u hd
    split at h
    · split at h
      · rename_i hpref tail hafter
        have e2 : html.drop (i + 2) = u := by
          rw [← List.drop_drop 2 i html, hd]
          rfl
        have e3 : html.drop (i + 2 + tag.length) = u.drop tag.length := by
          rw [← List.drop_drop tag.length (i + 2) html, e2]
        have e4 : html.drop (i + 2 + tag.length +
            ((u.drop tag.length).takeWhile jsSpace).length) = '>' :: tail := by
          rw [← List.drop_drop ((u.drop tag.length).takeWhile jsSpace).length
            (i + 2 + tag.length) html, e3, hafter]
        exact ⟨i + 2 + tag.length + ((u.drop tag.length).takeWhile jsSpace).length,
          tail, by omega, e4⟩
      · simp at h
    · simp at h
  · simp at h

theorem findBalancedGo_spec (html tag : List Char) :
    ∀ (fuel : Nat) {i depth j : Nat},
      findBalancedGo html tag fuel i depth = some j →
      i ≤ j ∧ (closeTokLenAt html j tag).isSome := by
  intro fuel
  induction fuel with
  | zero => intro i depth j h; simp [findBalancedGo] at h
  | succ fuel ih =>
    intro i depth j h
    simp only [findBalancedGo] at h
    split at h
    · simp at h
    · split at h
      · have := ih h
        exact ⟨by omega, this.2⟩
      · split at h
        · rename_i len hlen
          split at h
          · simp only [Option.some.injEq] at h
            subst h
            exact ⟨le_refl _, by simp [hlen]⟩
          · have := ih h
            exact ⟨by omega, this.2⟩
        · have := ih h
          exact ⟨by omega, this.2⟩

theorem findBalancedClose_spec {html : List Char} {f : Nat} {tag : List Char} {j : Nat}
    (h : findBalancedClose html f tag = some j) :
    f ≤ j ∧ (closeTokLenAt html j tag).isSome :=
  findBalancedGo_spec html tag _ h

theorem indexOfGo_some_ge (c : Char) :
    ∀ (l : List Char) {i m : Nat}, indexOfGo c i l = some m → i ≤ m := by
  intro l
  induction l with
  | nil => intro i m h; simp [indexOfGo] at h
  | cons d rest ih =>
    intro i m h
    simp only [indexOfGo] at h
    split at h
    · simp only [Option.some.injEq] at h; omega
    · exact Nat.le_of_succ_le (ih h)

theorem indexOfGo_isSome (c : Char) :
    ∀ (l : List Char) (i : Nat), (∃ d rest, l.drop d = c :: rest) →
      (indexOfGo c i l).isSome := by
  intro l
  induction l with
  | nil =>
    intro i h
    obtain ⟨d, rest, hd⟩ := h
    simp at hd
  | cons e t ih =>
    intro i h
    simp only [indexOfGo]
    split
    · simp
    · rename_i hne
      obtain ⟨d, rest, hd⟩ := h
      cases d with
      | zero =>
        simp only [List.drop_zero, List.cons.injEq] at hd
        exact absurd hd.1 (by simpa using hne)
      | succ d' =>
        exact ih (i + 1) ⟨d', rest, by simpa using hd⟩

theorem indexOfFrom_exists {c : Char} {html : List Char} {i0 k : Nat} {rest : List Char}
    (hk : i0 ≤ k) (hd : html.drop k = c :: rest) :
    ∃ m, indexOfFrom c html i0 = some m ∧ i0 ≤ m := by
  have hsome : (indexOfGo c i0 (html.drop i0)).isSome := by
    refine indexOfGo_isSome c _ _ ⟨k - i0, rest, ?_⟩
    rw [List.drop_drop]
    rw [Nat.add_sub_cancel' hk]
    exact hd
  obtain ⟨m, hm⟩ := Option.isSome_iff_exists.mp hsome
  exact ⟨m, hm, indexOfGo_some_ge c _ hm⟩

/-- The invariant of the span-collection loop: every reported span starts
at or after the scan position and ends after it starts, and consecutive
spans do not overlap. -/
theorem findSpansLoop_inv (html : List Char) (re : RE) (tag : List Char) :
    ∀ (fuel pos : Nat),
      (∀ sp ∈ findSpansLoop html re tag fuel pos, pos ≤ sp.start ∧ sp.start < sp.stop) ∧
      List.Chain' (fun a b => a.stop ≤ b.start) (findSpansLoop html re tag fuel pos) := by
  intro fuel
  induction fuel with
  | zero => intro pos; simp [findSpansLoop]
  | succ fuel ih =>
    intro pos
    cases hexec : execFrom true re html pos with
    | none => simp [findSpansLoop, hexec]
    | some r =>
      obtain ⟨idx, len, caps⟩ := r
      have hidx : pos ≤ idx := execFrom_idx_ge hexec
      cases hclose : findBalancedClose html (idx + len) tag with
      | none =>
        rw [findSpansLoop]
        simp only [hexec, hclose]
        have hnxt := ih (idx + len)
        refine ⟨fun sp hsp => ?_, hnxt.2⟩
        have h1 := hnxt.1 sp hsp
        exact ⟨by omega, h1.2⟩
      | some closeIdx =>
        obtain ⟨hge, hsome⟩ := findBalancedClose_spec hclose
        obtain ⟨clen, hclen⟩ := Option.isSome_iff_exists.mp hsome
        obtain ⟨k, krest, hk, hkd⟩ := closeTok_gt_exists hclen
        obtain ⟨m, hm, hmge⟩ := indexOfFrom_exists hk hkd
        have hstop : idx < m + 1 := by
          have : idx + len ≤ m := le_trans hge hmge
          omega
        have hrec := ih (m + 1)
        rw [findSpansLoop]
        simp only [hexec, hclose, hm]
        constructor
        · intro sp hsp
          rcases List.mem_cons.mp hsp with rfl | hmem
          · exact ⟨hidx, hstop⟩
          · have h1 := hrec.1 sp hmem
            exact ⟨by omega, h1.2⟩
        · refine List.chain'_cons'.mpr ⟨?_, hrec.2⟩
          intro b hb
          have hbmem : b ∈ findSpansLoop html re tag fuel (m + 1) :=
            List.mem_of_mem_head? hb
          exact (hrec.1 b hbmem).1

/-- Claim C6: for every input text and every container pattern, the
top-level spans the balanced matcher collects are ordered earliest-start
first with positive extent, and no two consecutive spans overlap — an
occurrence nested inside a reported span is consumed by it (the next scan
resumes at the span's end), and an unbalanced prefix occurrence produces no
span. -/
theorem C6_top_level_spans (text pattern : List Char) (info : ContainerInfo)
    (hc : analyzeContainer pattern = some info) :
    (∀ sp ∈ findTopLevel text (compilePattern info.startPattern).re info.tagName,
      sp.start < sp.stop) ∧
    List.Chain' (fun a b => a.stop ≤ b.start)
      (findTopLevel text (compilePattern info.startPattern).re info.tagName) := by
  have h := findSpansLoop_inv text (compilePattern info.startPattern).re info.tagName
    (text.length + 2) 0
  exact ⟨fun sp hsp => (h.1 sp hsp).2, h.2⟩

/-- Witness for `C6_top_level_spans` at the nested-container example. -/
theorem C6_top_level_spans_witness :
    (∀ sp ∈ findTopLevel "<div class=\"a\"><div class=\"a\">X</div>Y</div> <div class=\"a\">Z</div>".data
        (compilePattern (ContainerInfo.mk "div".data "<div class=\"a\">".data "content".data).startPattern).re
        (ContainerInfo.mk "div".data "<div class=\"a\">".data "content".data).tagName,
      sp.start < sp.stop) ∧
    List.Chain' (fun a b => a.stop ≤ b.start)
      (findTopLevel "<div class=\"a\"><div class=\"a\">X</div>Y</div> <div class=\"a\">Z</div>".data
        (compilePattern (ContainerInfo.mk "div".data "<div class=\"a\">".data "content".data).startPattern).re
        (ContainerInfo.mk "div".data "<div class=\"a\">".data "content".data).tagName) :=
  C6_top_level_spans
    "<div class=\"a\"><div class=\"a\">X</div>Y</div> <div class=\"a\">Z</div>".data
    "<div class=\"a\">{{content}}</div>".data
    (ContainerInfo.mk "div".data "<div class=\"a\">".data "content".data) (by decide)

/-! ## C10 — `migrate` does not mutate its part-array arguments -/

/-- Claim C10: in the store-passing rendering of `migrate`, the array cells
holding `sourceParts` and `targetParts` are unchanged after the call —
sorting happens in place only on the freshly allocated spread copy, and the
target lookup is a separate map. -/
theorem C10_no_mutation (st : Store) (srcRef tgtRef : Nat) (html : List Char)
    (hsrc : srcRef < st.length) (htgt : tgtRef < st.length) :
    storeRead (migrateHeap st srcRef tgtRef html).1 srcRef = storeRead st srcRef ∧
    storeRead (migrateHeap st srcRef tgtRef html).1 tgtRef = storeRead st tgtRef := by
  have key : ∀ r, r < st.length →
      storeRead (migrateHeap st srcRef tgtRef html).1 r = storeRead st r := by
    intro r hr
    simp only [migrateHeap, storeAlloc, storeWrite, storeRead]
    rw [List.getElem?_set_ne (by omega)]
    rw [List.getElem?_append, if_pos hr]
  exact ⟨key srcRef hsrc, key tgtRef htgt⟩

/-- Witness for `C10_no_mutation` on a two-cell store. -/
theorem C10_no_mutation_witness :
    storeRead (migrateHeap [[⟨"b".data, "x".data⟩], [⟨"b".data, "y".data⟩]] 0 1 "z".data).1 0 =
      storeRead [[⟨"b".data, "x".data⟩], [⟨"b".data, "y".data⟩]] 0 ∧
    storeRead (migrateHeap [[⟨"b".data, "x".data⟩], [⟨"b".data, "y".data⟩]] 0 1 "z".data).1 1 =
      storeRead [[⟨"b".data, "x".data⟩], [⟨"b".data, "y".data⟩]] 1 :=
  C10_no_mutation [[⟨"b".data, "x".data⟩], [⟨"b".data, "y".data⟩]] 0 1 "z".data
    (by decide) (by decide)

/-! ## C8 — idempotence of `normalize`

The development: (a) escape/unescape inverses and scanner-splitting lemmas;
(b) fuel-sufficiency (`…_mono`) lemmas so the fuelled scanners can be
reasoned about at their canonical fuel; (c) the tokenizer round-trip
`tokenize (serializeForest m ++ r) = forestToks m ++ tokenize r`;
(d) the builder round-trip `buildAll (forestToks m ++ ts) = (m ++ …)`;
(e) well-formedness of parser output and its preservation by
`recursiveRemoveEmpty`; (f) `cleanForest` is idempotent and commutes with
text-node merging; these assemble into
`cleanHtml (cleanHtml x) = cleanHtml x`. -/

theorem escText_append (a b : List Char) :
    escText (a ++ b) = escText a ++ escText b := by
  simp [escText]

theorem startsWith_length : ∀ (s p : List Char), startsWith s p = true → p.length ≤ s.length := by
  intro s
  induction s with
  | nil => intro p h; cases p with
    | nil => simp
    | cons d q => simp [startsWith] at h
  | cons c s ih =>
    intro p h
    cases p with
    | nil => simp
    | cons d q =>
      simp only [startsWith, Bool.and_eq_true] at h
      simpa using Nat.succ_le_succ (ih q h.2)

theorem entHead_some_len : ∀ (y : List Char) (d : Char) (rest : List Char),
    entHead y = some (d, rest) → rest.length < y.length := by
  intro y d rest h
  unfold entHead at h
  split at h
  · rename_i hs
    injection h with h1; cases h1
    have hl := startsWith_length y ['a', 'm', 'p', ';'] hs
    have h4 : (['a', 'm', 'p', ';'] : List Char).length = 4 := rfl
    rw [List.length_drop]; omega
  split at h
  · rename_i hs
    injection h with h1; cases h1
    have hl := startsWith_length y ['l', 't', ';'] hs
    have h4 : (['l', 't', ';'] : List Char).length = 3 := rfl
    rw [List.length_drop]; omega
  split at h
  · rename_i hs
    injection h with h1; cases h1
    have hl := startsWith_length y ['g', 't', ';'] hs
    have h4 : (['g', 't', ';'] : List Char).length = 3 := rfl
    rw [List.length_drop]; omega
  split at h
  · rename_i hs
    injection h with h1; cases h1
    have hl := startsWith_length y ['q', 'u', 'o', 't', ';'] hs
    have h4 : (['q', 'u', 'o', 't', ';'] : List Char).length = 5 := rfl
    rw [List.length_drop]; omega
  split at h
  · rename_i hs
    injection h with h1; cases h1
    have hl := startsWith_length y ['#', '0', '3', '9', ';'] hs
    have h4 : (['#', '0', '3', '9', ';'] : List Char).length = 5 := rfl
    rw [List.length_drop]; omega
  · exact Option.noConfusion h

theorem unescapeEntF_fuel : ∀ (f g : Nat) (s : List Char), s.length < f → s.length < g →
    unescapeEntF f s = unescapeEntF g s := by
  intro f
  induction f with
  | zero => intro g s h; omega
  | succ f ih =>
    intro g s hf hg
    cases g with
    | zero => omega
    | succ g =>
      cases s with
      | nil => rfl
      | cons c y =>
        simp only [List.length_cons] at hf hg
        rw [unescapeEntF, unescapeEntF]
        by_cases hc : c = '&'
        · rw [if_pos hc, if_pos hc]
          cases hE : entHead y with
          | some p =>
            obtain ⟨d, rest⟩ := p
            have hr := entHead_some_len y d rest hE
            show d :: unescapeEntF f rest = d :: unescapeEntF g rest
            exact congrArg _ (ih g rest (by omega) (by omega))
          | none =>
            show '&' :: unescapeEntF f y = '&' :: unescapeEntF g y
            exact congrArg _ (ih g y (by omega) (by omega))
        · rw [if_neg hc, if_neg hc]
          exact congrArg _ (ih g y (by omega) (by omega))

theorem unescapeEntF_eq (s : List Char) (f : Nat) (h : s.length < f) :
    unescapeEntF f s = unescapeEnt s :=
  unescapeEntF_fuel f (s.length + 1) s h (by omega)

theorem unescapeEnt_amp (y : List Char) :
    unescapeEnt ('&' :: 'a' :: 'm' :: 'p' :: ';' :: y) = '&' :: unescapeEnt y := by
  show unescapeEntF (y.length + 5 + 1) _ = _
  rw [unescapeEntF, if_pos rfl]
  have hE : entHead ('a' :: 'm' :: 'p' :: ';' :: y) = some ('&', y) := by simp [entHead, startsWith]
  rw [hE]
  exact congrArg _ (unescapeEntF_eq y _ (by omega))

theorem unescapeEnt_lt (y : List Char) :
    unescapeEnt ('&' :: 'l' :: 't' :: ';' :: y) = '<' :: unescapeEnt y := by
  show unescapeEntF (y.length + 4 + 1) _ = _
  rw [unescapeEntF, if_pos rfl]
  have hE : entHead ('l' :: 't' :: ';' :: y) = some ('<', y) := by simp [entHead, startsWith]
  rw [hE]
  exact congrArg _ (unescapeEntF_eq y _ (by omega))

theorem unescapeEnt_gt (y : List Char) :
    unescapeEnt ('&' :: 'g' :: 't' :: ';' :: y) = '>' :: unescapeEnt y := by
  show unescapeEntF (y.length + 4 + 1) _ = _
  rw [unescapeEntF, if_pos rfl]
  have hE : entHead ('g' :: 't' :: ';' :: y) = some ('>', y) := by simp [entHead, startsWith]
  rw [hE]
  exact congrArg _ (unescapeEntF_eq y _ (by omega))

theorem unescapeEnt_quot (y : List Char) :
    unescapeEnt ('&' :: 'q' :: 'u' :: 'o' :: 't' :: ';' :: y) = '"' :: unescapeEnt y := by
  show unescapeEntF (y.length + 6 + 1) _ = _
  rw [unescapeEntF, if_pos rfl]
  have hE : entHead ('q' :: 'u' :: 'o' :: 't' :: ';' :: y) = some ('"', y) := by simp [entHead, startsWith]
  rw [hE]
  exact congrArg _ (unescapeEntF_eq y _ (by omega))

theorem unescapeEnt_cons_ne {c : Char} (y : List Char) (h : c ≠ '&') :
    unescapeEnt (c :: y) = c :: unescapeEnt y := by
  show unescapeEntF (y.length + 1 + 1) _ = _
  rw [unescapeEntF, if_neg h]
  rfl

theorem unescapeEnt_escText (s : List Char) : unescapeEnt (escText s) = s := by
  induction s with
  | nil => rfl
  | cons c rest ih =>
    show unescapeEnt ((if c = '&' then "&amp;".data else if c = '<' then "&lt;".data
      else if c = '>' then "&gt;".data else [c]) ++ escText rest) = c :: rest
    by_cases h1 : c = '&'
    · subst h1
      simp only [if_pos rfl]
      show unescapeEnt ('&' :: 'a' :: 'm' :: 'p' :: ';' :: escText rest) = _
      rw [unescapeEnt_amp, ih]
    · by_cases h2 : c = '<'
      · subst h2
        simp only [if_neg h1, if_pos rfl]
        show unescapeEnt ('&' :: 'l' :: 't' :: ';' :: escText rest) = _
        rw [unescapeEnt_lt, ih]
      · by_cases h3 : c = '>'
        · subst h3
          simp only [if_neg h1, if_neg h2, if_pos rfl]
          show unescapeEnt ('&' :: 'g' :: 't' :: ';' :: escText rest) = _
          rw [unescapeEnt_gt, ih]
        · simp only [if_neg h1, if_neg h2, if_neg h3]
          show unescapeEnt (c :: escText rest) = _
          rw [unescapeEnt_cons_ne _ h1, ih]


/-! ### Character-level facts about lower-casing -/

theorem char_toNat_inj {c d : Char} (h : c.toNat = d.toNat) : c = d :=
  Char.eq_of_val_eq (UInt32.ext h)

theorem ofNat_toNat_valid {n : Nat} (h1 : 97 ≤ n) (h2 : n ≤ 122) :
    (Char.ofNat n).toNat = n := by
  have hv : n.isValidChar := Or.inl (by omega)
  simp [Char.ofNat, hv, Char.ofNatAux, Char.toNat, UInt32.toNat, BitVec.toNat_ofNatLt]

theorem upper_bool_iff (c : Char) :
    ('A' ≤ c && c ≤ 'Z') = true ↔ 65 ≤ c.toNat ∧ c.toNat ≤ 90 := by
  simp only [Bool.and_eq_true, decide_eq_true_eq, Char.le_def]
  exact Iff.rfl

theorem lowerC_toNat (c : Char) :
    (lowerC c).toNat = if 65 ≤ c.toNat ∧ c.toNat ≤ 90 then c.toNat + 32 else c.toNat := by
  by_cases h : 65 ≤ c.toNat ∧ c.toNat ≤ 90
  · rw [if_pos h]
    show (if ('A' ≤ c && c ≤ 'Z') = true then Char.ofNat (c.toNat + 32) else c).toNat = _
    rw [if_pos ((upper_bool_iff c).mpr h)]
    exact ofNat_toNat_valid (by omega) (by omega)
  · rw [if_neg h]
    show (if ('A' ≤ c && c ≤ 'Z') = true then Char.ofNat (c.toNat + 32) else c).toNat = _
    rw [if_neg (fun hb => h ((upper_bool_iff c).mp hb))]

theorem lowerC_idem (c : Char) : lowerC (lowerC c) = lowerC c := by
  apply char_toNat_inj
  rw [lowerC_toNat (lowerC c), lowerC_toNat c]
  by_cases h : 65 ≤ c.toNat ∧ c.toNat ≤ 90
  · rw [if_pos h, if_neg (by omega)]
  · rw [if_neg h, if_neg h]

theorem lowerS_idem (s : List Char) : lowerS (lowerS s) = lowerS s := by
  simp [lowerS, Function.comp, lowerC_idem]

theorem isAlpha_toNat (c : Char) : c.isAlpha = true ↔
    (65 ≤ c.toNat ∧ c.toNat ≤ 90) ∨ (97 ≤ c.toNat ∧ c.toNat ≤ 122) := by
  simp only [Char.isAlpha, Char.isUpper, Char.isLower, Bool.or_eq_true, Bool.and_eq_true,
    decide_eq_true_eq, Char.le_def]
  exact Iff.rfl

theorem lowerC_isAlpha {c : Char} (h : c.isAlpha = true) : (lowerC c).isAlpha = true := by
  rw [isAlpha_toNat] at h ⊢
  rw [lowerC_toNat]
  rcases h with h | h
  · rw [if_pos h]; omega
  · rw [if_neg (by omega)]; omega

theorem isDigit_toNat (c : Char) : c.isDigit = true ↔ 48 ≤ c.toNat ∧ c.toNat ≤ 57 := by
  simp only [Char.isDigit, Bool.and_eq_true, decide_eq_true_eq, Char.le_def]
  exact Iff.rfl

theorem lowerC_tagChar {c : Char} (h : tagChar c = true) : tagChar (lowerC c) = true := by
  simp only [tagChar, Bool.or_eq_true] at h ⊢
  rcases h with h | h
  · exact Or.inl (lowerC_isAlpha h)
  · right
    rw [isDigit_toNat] at h ⊢
    rw [lowerC_toNat, if_neg (by omega)]
    exact h

theorem eq_char_toNat (c d : Char) : c = d ↔ c.toNat = d.toNat :=
  ⟨fun h => h ▸ rfl, char_toNat_inj⟩

theorem jsSpace_toNat (c : Char) : jsSpace c = true ↔
    c.toNat = 32 ∨ c.toNat = 9 ∨ c.toNat = 10 ∨ c.toNat = 13 ∨ c.toNat = 11 ∨ c.toNat = 12 := by
  simp only [jsSpace, Bool.or_eq_true, decide_eq_true_eq]
  rw [eq_char_toNat c ' ', eq_char_toNat c '\t', eq_char_toNat c '\n', eq_char_toNat c '\r',
    eq_char_toNat c '\x0b', eq_char_toNat c '\x0c']
  rw [show (' ').toNat = 32 from rfl, show ('\t').toNat = 9 from rfl,
    show ('\n').toNat = 10 from rfl, show ('\r').toNat = 13 from rfl,
    show ('\x0b').toNat = 11 from rfl, show ('\x0c').toNat = 12 from rfl]
  tauto

theorem lowerC_attrNameChar {c : Char} (h : attrNameChar c = true) :
    attrNameChar (lowerC c) = true := by
  simp only [attrNameChar, Bool.or_eq_true, decide_eq_true_eq, not_or] at h ⊢
  by_cases hu : 65 ≤ c.toNat ∧ c.toNat ≤ 90
  · have hl : (lowerC c).toNat = c.toNat + 32 := by rw [lowerC_toNat, if_pos hu]
    refine ⟨⟨⟨?_, ?_⟩, ?_⟩, ?_⟩
    · intro hsp
      rw [jsSpace_toNat, hl] at hsp
      omega
    · intro he
      rw [eq_char_toNat, hl] at he
      have h61 : ('=' : Char).toNat = 61 := rfl
      omega
    · intro he
      rw [eq_char_toNat, hl] at he
      have h62 : ('>' : Char).toNat = 62 := rfl
      omega
    · intro he
      rw [eq_char_toNat, hl] at he
      have h47 : ('/' : Char).toNat = 47 := rfl
      omega
  · have hl : lowerC c = c := char_toNat_inj (by rw [lowerC_toNat, if_neg hu])
    rw [hl]
    exact h

/-! ### Scanner-splitting lemmas -/

theorem startsWith_nil (s : List Char) : startsWith s [] = true := by
  cases s <;> rfl

theorem startsWith_append_of_le : ∀ (u w pat : List Char), pat.length ≤ u.length →
    startsWith (u ++ w) pat = startsWith u pat := by
  intro u w pat
  induction pat generalizing u with
  | nil => intro h; rw [startsWith_nil, startsWith_nil]
  | cons d q ih =>
    intro h
    cases u with
    | nil => simp at h
    | cons c u' =>
      show (decide (c = d) && startsWith (u' ++ w) q) = (decide (c = d) && startsWith u' q)
      rw [ih u' (by simp only [List.length_cons] at h; omega)]

theorem startsWith_true_append : ∀ (u w pat : List Char), startsWith u pat = true →
    startsWith (u ++ w) pat = true := by
  intro u w pat
  induction pat generalizing u with
  | nil => intro h; rw [startsWith_nil]
  | cons d q ih =>
    intro h
    cases u with
    | nil => exact absurd h (by simp [startsWith])
    | cons c u' =>
      have h' : (decide (c = d) && startsWith u' q) = true := h
      simp only [Bool.and_eq_true] at h'
      show (decide (c = d) && startsWith (u' ++ w) q) = true
      simp only [Bool.and_eq_true]
      exact And.intro h'.1 (ih u' h'.2)

theorem startsWith_decompose : ∀ (s pat : List Char), startsWith s pat = true →
    s = pat ++ s.drop pat.length := by
  intro s pat
  induction pat generalizing s with
  | nil => intro h; simp
  | cons d q ih =>
    intro h
    cases s with
    | nil => exact absurd h (by simp [startsWith])
    | cons c s' =>
      have h' : (decide (c = d) && startsWith s' q) = true := h
      simp only [Bool.and_eq_true, decide_eq_true_eq] at h'
      simp only [List.length_cons, List.drop_succ_cons, List.cons_append]
      rw [h'.1]
      exact congrArg _ (ih s' h'.2)

theorem takeWhile_append_all {p : Char → Bool} : ∀ (u : List Char) (d : Char) (w : List Char),
    (∀ c ∈ u, p c = true) → p d = false →
    (u ++ d :: w).takeWhile p = u := by
  intro u d w hu hd
  induction u with
  | nil => simp [List.takeWhile_cons, hd]
  | cons c u' ih =>
    have hc : p c = true := hu c (by simp)
    simp [List.takeWhile_cons, hc, ih (fun x hx => hu x (by simp [hx]))]

theorem breakAtChar_append {c : Char} : ∀ (u w : List Char), (∀ d ∈ u, ¬d = c) →
    breakAtChar c (u ++ c :: w) = (u, w) := by
  intro u w hu
  induction u with
  | nil => simp [breakAtChar]
  | cons d u' ih =>
    have hd : ¬d = c := hu d (by simp)
    show (if d = c then ([], u' ++ c :: w)
      else ((d :: (breakAtChar c (u' ++ c :: w)).1, (breakAtChar c (u' ++ c :: w)).2) :
        List Char × List Char)) = (d :: u', w)
    rw [if_neg hd, ih (fun x hx => hu x (by simp [hx]))]

theorem breakAtChar_snd_len : ∀ (s : List Char) (c : Char),
    ((breakAtChar c s).2).length ≤ s.length := by
  intro s c
  induction s with
  | nil => simp [breakAtChar]
  | cons d rest ih =>
    show ((if d = c then (([], rest) : List Char × List Char)
      else (d :: (breakAtChar c rest).1, (breakAtChar c rest).2)).2).length ≤ rest.length + 1
    by_cases hd : d = c
    · rw [if_pos hd]; exact Nat.le_succ _
    · rw [if_neg hd]; exact Nat.le_succ_of_le ih

theorem breakAtLit_cons_pos {pat : List Char} {c : Char} {rest : List Char}
    (h : startsWith (c :: rest) pat = true) :
    breakAtLit pat (c :: rest) = ([], some ((c :: rest).drop pat.length)) := by
  show (if startsWith (c :: rest) pat then (([], some ((c :: rest).drop pat.length)) :
    List Char × Option (List Char))
    else (c :: (breakAtLit pat rest).1, (breakAtLit pat rest).2)) = _
  rw [if_pos h]

theorem breakAtLit_cons_neg {pat : List Char} {c : Char} {rest : List Char}
    (h : ¬startsWith (c :: rest) pat = true) :
    breakAtLit pat (c :: rest) = (c :: (breakAtLit pat rest).1, (breakAtLit pat rest).2) := by
  show (if startsWith (c :: rest) pat then (([], some ((c :: rest).drop pat.length)) :
    List Char × Option (List Char))
    else (c :: (breakAtLit pat rest).1, (breakAtLit pat rest).2)) = _
  rw [if_neg h]

theorem breakAtLit_some_len {pat : List Char} (hp : pat ≠ []) : ∀ (s b a : List Char),
    breakAtLit pat s = (b, some a) → a.length < s.length := by
  intro s
  induction s with
  | nil =>
    intro b a h
    injection h with hb hr
    exact absurd hr (by simp)
  | cons c rest ih =>
    intro b a h
    by_cases hs : startsWith (c :: rest) pat = true
    · rw [breakAtLit_cons_pos hs] at h
      injection h with hb hr
      injection hr with ha
      rw [← ha]
      cases pat with
      | nil => exact absurd rfl hp
      | cons p q => simp only [List.length_drop, List.length_cons]; omega
    · rw [breakAtLit_cons_neg hs] at h
      injection h with hb hr
      have := ih (breakAtLit pat rest).1 a (Prod.ext rfl hr)
      simp only [List.length_cons]
      omega

theorem breakAtLit_eq_append {pat : List Char} : ∀ (s b a : List Char),
    breakAtLit pat s = (b, some a) → s = b ++ pat ++ a := by
  intro s
  induction s with
  | nil =>
    intro b a h
    injection h with hb hr
    exact absurd hr (by simp)
  | cons c rest ih =>
    intro b a h
    by_cases hs : startsWith (c :: rest) pat = true
    · rw [breakAtLit_cons_pos hs] at h
      injection h with hb hr
      injection hr with ha
      rw [← hb, ← ha]
      simpa using startsWith_decompose _ _ hs
    · rw [breakAtLit_cons_neg hs] at h
      injection h with hb hr
      have := ih (breakAtLit pat rest).1 a (Prod.ext rfl hr)
      rw [← hb]
      simp only [List.cons_append]
      exact congrArg _ this

theorem breakAtLit_none_eq {pat : List Char} : ∀ (s b : List Char),
    breakAtLit pat s = (b, none) → b = s := by
  intro s
  induction s with
  | nil =>
    intro b h
    injection h with hb hr
    exact hb.symm
  | cons c rest ih =>
    intro b h
    by_cases hs : startsWith (c :: rest) pat = true
    · rw [breakAtLit_cons_pos hs] at h
      injection h with hb hr
      exact absurd hr (by simp)
    · rw [breakAtLit_cons_neg hs] at h
      injection h with hb hr
      rw [← hb, ih (breakAtLit pat rest).1 (Prod.ext rfl hr)]

theorem breakAtLit_of_not_contains {pat : List Char} : ∀ (s : List Char),
    containsLit pat s = false → breakAtLit pat s = (s, none) := by
  intro s
  induction s with
  | nil => intro h; rfl
  | cons c rest ih =>
    intro h
    unfold containsLit at h
    by_cases hs : startsWith (c :: rest) pat = true
    · rw [breakAtLit_cons_pos hs] at h
      simp at h
    · rw [breakAtLit_cons_neg hs] at h ⊢
      simp only at h
      have h2 : (breakAtLit pat rest).2 = none := by
        cases hE : (breakAtLit pat rest).2 with
        | none => rfl
        | some a => rw [hE] at h; simp at h
      have h1 : (breakAtLit pat rest).1 = rest :=
        breakAtLit_none_eq rest _ (Prod.ext rfl h2)
      rw [h1, h2]

theorem breakAtLit_fst_clean {pat : List Char} : ∀ (s b : List Char) (r : Option (List Char)),
    breakAtLit pat s = (b, r) → containsLit pat b = false := by
  intro s
  induction s with
  | nil =>
    intro b r h
    injection h with hb hr
    rw [← hb]
    rfl
  | cons c rest ih =>
    intro b r h
    by_cases hs : startsWith (c :: rest) pat = true
    · rw [breakAtLit_cons_pos hs] at h
      injection h with hb hr
      rw [← hb]
      rfl
    · rw [breakAtLit_cons_neg hs] at h
      injection h with hb hr
      rw [← hb]
      have hs2 : ¬startsWith (c :: (breakAtLit pat rest).1) pat = true := by
        intro hcon
        apply hs
        cases hE : (breakAtLit pat rest).2 with
        | some a =>
          have hr2 : rest = (breakAtLit pat rest).1 ++ pat ++ a :=
            breakAtLit_eq_append rest _ a (Prod.ext rfl hE)
          have hsw : startsWith ((c :: (breakAtLit pat rest).1) ++ (pat ++ a)) pat = true :=
            startsWith_true_append _ _ _ hcon
          rw [show (c :: (breakAtLit pat rest).1) ++ (pat ++ a) = c :: rest from by
            simp only [List.cons_append]
            rw [← List.append_assoc]
            exact congrArg (List.cons c) hr2.symm] at hsw
          exact hsw
        | none =>
          have hr2 : (breakAtLit pat rest).1 = rest :=
            breakAtLit_none_eq rest _ (Prod.ext rfl hE)
          rw [hr2] at hcon
          exact hcon
      unfold containsLit
      rw [breakAtLit_cons_neg hs2]
      exact ih _ _ rfl

theorem breakAtLit_marker : ∀ (s z : List Char), containsLit ['-', '-', '>'] s = false →
    breakAtLit ['-', '-', '>'] (s ++ '-' :: '-' :: '>' :: z) = (s, some z) := by
  intro s
  induction s with
  | nil =>
    intro z h
    rw [List.nil_append, breakAtLit_cons_pos (by simp [startsWith])]
    simp
  | cons c s' ih =>
    intro z h
    unfold containsLit at h
    by_cases hs : startsWith (c :: s') ['-', '-', '>'] = true
    · rw [breakAtLit_cons_pos hs] at h
      simp at h
    · rw [breakAtLit_cons_neg hs] at h
      simp only at h
      have hfull : ¬startsWith ((c :: s') ++ '-' :: '-' :: '>' :: z) ['-', '-', '>'] = true := by
        cases s' with
        | nil =>
          intro hcon
          simp [startsWith] at hcon
        | cons d s'' =>
          cases s'' with
          | nil =>
            intro hcon
            simp [startsWith] at hcon
          | cons e s3 =>
            rw [startsWith_append_of_le _ _ _ (by simp)]
            exact hs
      rw [List.cons_append]
      rw [@breakAtLit_cons_neg ['-', '-', '>'] c (s' ++ '-' :: '-' :: '>' :: z)
        (by rw [← List.cons_append]; exact hfull), ih z h]

theorem isTagStart_false_of_ne {c : Char} (hc : ¬c = '<') :
    ∀ w, isTagStart (c :: w) = false := by
  intro w
  cases w with
  | nil => rfl
  | cons d w' => simp [isTagStart, hc]

theorem takeRawText_cons_pos {c : Char} {rest : List Char}
    (h : isTagStart (c :: rest) = true) :
    takeRawText (c :: rest) = ([], c :: rest) := by
  show (if isTagStart (c :: rest) then (([], c :: rest) : List Char × List Char)
    else (c :: (takeRawText rest).1, (takeRawText rest).2)) = _
  rw [if_pos h]

theorem takeRawText_cons_neg {c : Char} {rest : List Char}
    (h : ¬isTagStart (c :: rest) = true) :
    takeRawText (c :: rest) = (c :: (takeRawText rest).1, (takeRawText rest).2) := by
  show (if isTagStart (c :: rest) then (([], c :: rest) : List Char × List Char)
    else (c :: (takeRawText rest).1, (takeRawText rest).2)) = _
  rw [if_neg h]

theorem takeRawText_append_eq : ∀ (s : List Char),
    (takeRawText s).1 ++ (takeRawText s).2 = s := by
  intro s
  induction s with
  | nil => rfl
  | cons c rest ih =>
    by_cases h : isTagStart (c :: rest) = true
    · rw [takeRawText_cons_pos h]
      rfl
    · rw [takeRawText_cons_neg h]
      show c :: ((takeRawText rest).1 ++ (takeRawText rest).2) = c :: rest
      rw [ih]

theorem takeRawText_split : ∀ (u r : List Char), (∀ c ∈ u, ¬c = '<') → restOK r →
    takeRawText (u ++ r) = (u, r) := by
  intro u
  induction u with
  | nil =>
    intro r _ hr
    cases hr with
    | inl h => subst h; rfl
    | inr h =>
      cases r with
      | nil => rfl
      | cons c rest => rw [List.nil_append, takeRawText_cons_pos h]
  | cons c u' ih =>
    intro r hu hr
    have hc : ¬c = '<' := hu c (by simp)
    rw [List.cons_append, takeRawText_cons_neg (by rw [isTagStart_false_of_ne hc]; simp)]
    rw [ih r (fun x hx => hu x (by simp [hx])) hr]

/-! ### Escape/unescape facts -/

theorem escText_no_lt (s : List Char) : '<' ∉ escText s := by
  intro hc
  simp only [escText, List.mem_flatMap] at hc
  obtain ⟨a, ha, hmem⟩ := hc
  split_ifs at hmem with h1 h2 h3
  · exact absurd hmem (by decide)
  · exact absurd hmem (by decide)
  · exact absurd hmem (by decide)
  · simp at hmem
    exact h2 hmem.symm

theorem escText_ne_nil {s : List Char} (h : s ≠ []) : escText s ≠ [] := by
  cases s with
  | nil => exact absurd rfl h
  | cons c rest =>
    simp only [escText, List.flatMap_cons]
    intro hcon
    rcases List.append_eq_nil.mp hcon with ⟨h1, _⟩
    split_ifs at h1 <;> simp_all

theorem escAttr_no_quote (s : List Char) : '"' ∉ escAttr s := by
  intro hc
  simp only [escAttr, List.mem_flatMap] at hc
  obtain ⟨a, ha, hmem⟩ := hc
  split_ifs at hmem with h1 h2
  · exact absurd hmem (by decide)
  · exact absurd hmem (by decide)
  · simp at hmem
    exact h2 hmem.symm

theorem unescapeEnt_escAttr (s : List Char) : unescapeEnt (escAttr s) = s := by
  induction s with
  | nil => rfl
  | cons c rest ih =>
    show unescapeEnt ((if c = '&' then "&amp;".data
      else if c = '"' then "&quot;".data else [c]) ++ escAttr rest) = c :: rest
    by_cases h1 : c = '&'
    · subst h1
      simp only [if_pos rfl]
      show unescapeEnt ('&' :: 'a' :: 'm' :: 'p' :: ';' :: escAttr rest) = _
      rw [unescapeEnt_amp, ih]
    · by_cases h2 : c = '"'
      · subst h2
        simp only [if_neg h1, if_pos rfl]
        show unescapeEnt ('&' :: 'q' :: 'u' :: 'o' :: 't' :: ';' :: escAttr rest) = _
        rw [unescapeEnt_quot, ih]
      · simp only [if_neg h1, if_neg h2]
        show unescapeEnt (c :: escAttr rest) = _
        rw [unescapeEnt_cons_ne _ h1, ih]

theorem unescapeEnt_ne_nil {s : List Char} (h : s ≠ []) : unescapeEnt s ≠ [] := by
  cases s with
  | nil => exact absurd rfl h
  | cons c rest =>
    show unescapeEntF (rest.length + 1 + 1) (c :: rest) ≠ []
    rw [unescapeEntF]
    by_cases hc : c = '&'
    · rw [if_pos hc]
      cases hE : entHead rest with
      | some p =>
        obtain ⟨d, r2⟩ := p
        simp
      | none => simp
    · rw [if_neg hc]
      simp

/-! ### Fuel sufficiency for the tokenizer and builder -/

theorem parseAttrValue_snd_le (u : List Char) : ((parseAttrValue u).2).length ≤ u.length := by
  unfold parseAttrValue
  split
  · rename_i r3
    have := breakAtChar_snd_len r3 '"'
    simp only [List.length_cons]
    omega
  · rename_i r3
    have := breakAtChar_snd_len r3 '\''
    simp only [List.length_cons]
    omega
  · rename_i r2 _
    simp only [List.length_drop, List.length_cons]
    omega
  · simp

theorem parseAttrsF_snd_le : ∀ (f : Nat) (s : List Char) (acc : List (List Char × List Char)),
    ((parseAttrsF f s acc).2).length ≤ s.length := by
  intro f
  induction f with
  | zero => intro s acc; exact Nat.le_refl _
  | succ f ih =>
    intro s acc
    cases s with
    | nil => exact Nat.zero_le _
    | cons c rest =>
      rw [parseAttrsF]
      by_cases h1 : c = '>'
      · rw [if_pos h1]
        simp only [List.length_cons]
        omega
      · rw [if_neg h1]
        by_cases h2 : (jsSpace c || c = '/') = true
        · rw [if_pos h2]
          have := ih rest acc
          simp only [List.length_cons]
          omega
        · rw [if_neg h2]
          simp only []
          by_cases h3 : ((c :: rest).takeWhile attrNameChar).isEmpty = true
          · rw [if_pos h3]
            have := ih rest acc
            simp only [List.length_cons]
            omega
          · rw [if_neg h3]
            have hne : (c :: rest).takeWhile attrNameChar ≠ [] := by
              intro hcon
              rw [hcon] at h3
              exact h3 rfl
            have hlen : 1 ≤ ((c :: rest).takeWhile attrNameChar).length :=
              Nat.one_le_iff_ne_zero.mpr (fun hz => hne (List.eq_nil_of_length_eq_zero hz))
            have hdrop : (((c :: rest).drop
                ((c :: rest).takeWhile attrNameChar).length)).length ≤ rest.length := by
              simp only [List.length_drop, List.length_cons]
              omega
            have hpv := parseAttrValue_snd_le ((c :: rest).drop
              ((c :: rest).takeWhile attrNameChar).length)
            have := ih (parseAttrValue ((c :: rest).drop
              ((c :: rest).takeWhile attrNameChar).length)).2
            simp only [List.length_cons]
            split
            · have h4 := this acc
              omega
            · have h4 := this (acc ++ [(lowerS ((c :: rest).takeWhile attrNameChar),
                unescapeEnt (parseAttrValue ((c :: rest).drop
                  ((c :: rest).takeWhile attrNameChar).length)).1)])
              omega

theorem parseAttrsF_fuel : ∀ (f g : Nat) (s : List Char) (acc : List (List Char × List Char)),
    s.length < f → s.length < g → parseAttrsF f s acc = parseAttrsF g s acc := by
  intro f
  induction f with
  | zero => intro g s acc h; omega
  | succ f ih =>
    intro g s acc hf hg
    cases g with
    | zero => omega
    | succ g =>
      cases s with
      | nil => rfl
      | cons c rest =>
        simp only [List.length_cons] at hf hg
        rw [parseAttrsF, parseAttrsF]
        by_cases h1 : c = '>'
        · rw [if_pos h1, if_pos h1]
        · rw [if_neg h1, if_neg h1]
          by_cases h2 : (jsSpace c || c = '/') = true
          · rw [if_pos h2, if_pos h2]
            exact ih g rest acc (by omega) (by omega)
          · rw [if_neg h2, if_neg h2]
            simp only []
            by_cases h3 : ((c :: rest).takeWhile attrNameChar).isEmpty = true
            · rw [if_pos h3, if_pos h3]
              exact ih g rest acc (by omega) (by omega)
            · rw [if_neg h3, if_neg h3]
              have hne : (c :: rest).takeWhile attrNameChar ≠ [] := by
                intro hcon
                rw [hcon] at h3
                exact h3 rfl
              have hlen : 1 ≤ ((c :: rest).takeWhile attrNameChar).length :=
                Nat.one_le_iff_ne_zero.mpr (fun hz => hne (List.eq_nil_of_length_eq_zero hz))
              have hpv := parseAttrValue_snd_le ((c :: rest).drop
                ((c :: rest).takeWhile attrNameChar).length)
              have hdl : (((c :: rest).drop
                  ((c :: rest).takeWhile attrNameChar).length)).length ≤ rest.length := by
                simp only [List.length_drop, List.length_cons]
                omega
              exact ih g _ _ (by omega) (by omega)

theorem parseAttrs_eq (s : List Char) (f : Nat) (h : s.length < f) :
    parseAttrsF f s [] = parseAttrs s :=
  parseAttrsF_fuel f (s.length + 1) s [] h (by omega)

theorem tokenizeF_comment_some {fuel : Nat} {c : Char} {rest content after : List Char}
    (hc : c = '<') (hsw : startsWith rest "!--".data = true)
    (hbl : breakAtLit "-->".data (rest.drop 3) = (content, some after)) :
    tokenizeF (fuel + 1) (c :: rest) = .tComment content :: tokenizeF fuel after := by
  rw [tokenizeF, if_pos (And.intro hc hsw), hbl]

theorem tokenizeF_comment_none {fuel : Nat} {c : Char} {rest content : List Char}
    (hc : c = '<') (hsw : startsWith rest "!--".data = true)
    (hbl : breakAtLit "-->".data (rest.drop 3) = (content, none)) :
    tokenizeF (fuel + 1) (c :: rest) = [.tComment content] := by
  rw [tokenizeF, if_pos (And.intro hc hsw), hbl]

theorem tokenizeF_close_some {fuel : Nat} {c : Char} {rest b after : List Char}
    (hc : c = '<') (hnc : ¬startsWith rest "!--".data = true)
    (hhd : rest.head? = some '/')
    (hbl : breakAtLit ">".data rest.tail = (b, some after)) :
    tokenizeF (fuel + 1) (c :: rest) =
      (if (rest.tail.takeWhile tagChar).isEmpty then tokenizeF fuel after
       else .tClose (lowerS (rest.tail.takeWhile tagChar)) :: tokenizeF fuel after) := by
  rw [tokenizeF, if_neg (fun hcon => hnc hcon.2), if_pos (And.intro hc hhd)]
  simp only [hbl]

theorem tokenizeF_close_none {fuel : Nat} {c : Char} {rest b : List Char}
    (hc : c = '<') (hnc : ¬startsWith rest "!--".data = true)
    (hhd : rest.head? = some '/')
    (hbl : breakAtLit ">".data rest.tail = (b, none)) :
    tokenizeF (fuel + 1) (c :: rest) = [] := by
  rw [tokenizeF, if_neg (fun hcon => hnc hcon.2), if_pos (And.intro hc hhd)]
  simp only [hbl]

theorem tokenizeF_open {fuel : Nat} {c : Char} {rest : List Char}
    (hc : c = '<') (hnc : ¬startsWith rest "!--".data = true)
    (hnh : ¬rest.head? = some '/')
    (hal : (rest.head?.map Char.isAlpha).getD false = true) :
    tokenizeF (fuel + 1) (c :: rest) =
      .tOpen (lowerS (rest.takeWhile tagChar))
          (parseAttrs (rest.drop (rest.takeWhile tagChar).length)).1 ::
        tokenizeF fuel (parseAttrs (rest.drop (rest.takeWhile tagChar).length)).2 := by
  rw [tokenizeF, if_neg (fun hcon => hnc hcon.2), if_neg (fun hcon => hnh hcon.2),
    if_pos (And.intro hc hal)]

theorem tokenizeF_text {fuel : Nat} {c : Char} {rest : List Char}
    (h1 : ¬(c = '<' ∧ startsWith rest "!--".data = true))
    (h2 : ¬(c = '<' ∧ rest.head? = some '/'))
    (h3 : ¬(c = '<' ∧ (rest.head?.map Char.isAlpha).getD false = true)) :
    tokenizeF (fuel + 1) (c :: rest) =
      (if ((takeRawText (c :: rest)).1).isEmpty then []
       else .tText (unescapeEnt (takeRawText (c :: rest)).1) ::
         tokenizeF fuel (takeRawText (c :: rest)).2) := by
  rw [tokenizeF, if_neg h1, if_neg h2, if_neg h3]

theorem tokenizeF_fuel : ∀ (f g : Nat) (s : List Char), s.length < f → s.length < g →
    tokenizeF f s = tokenizeF g s := by
  intro f
  induction f with
  | zero => intro g s h; omega
  | succ f ih =>
    intro g s hf hg
    cases g with
    | zero => omega
    | succ g =>
      cases s with
      | nil => rfl
      | cons c rest =>
        simp only [List.length_cons] at hf hg
        by_cases h1 : (c = '<' ∧ startsWith rest "!--".data = true)
        · cases hbl : breakAtLit "-->".data (rest.drop 3) with
          | mk content r =>
            cases r with
            | some after =>
              rw [tokenizeF_comment_some h1.1 h1.2 hbl, tokenizeF_comment_some h1.1 h1.2 hbl]
              have hlt : after.length < (rest.drop 3).length :=
                breakAtLit_some_len (by decide) _ _ _ hbl
              have hd3 : (rest.drop 3).length ≤ rest.length := by
                simp only [List.length_drop]
                omega
              rw [ih g after (by omega) (by omega)]
            | none =>
              rw [tokenizeF_comment_none h1.1 h1.2 hbl, tokenizeF_comment_none h1.1 h1.2 hbl]
        · by_cases h2 : (c = '<' ∧ rest.head? = some '/')
          · have hnc : ¬startsWith rest "!--".data = true := fun hcon => h1 ⟨h2.1, hcon⟩
            cases hbl : breakAtLit ">".data rest.tail with
            | mk b r =>
              cases r with
              | some after =>
                rw [tokenizeF_close_some h2.1 hnc h2.2 hbl,
                  tokenizeF_close_some h2.1 hnc h2.2 hbl]
                have hlt : after.length < rest.tail.length :=
                  breakAtLit_some_len (by decide) _ _ _ hbl
                have htl : rest.tail.length ≤ rest.length := by
                  cases rest <;> simp
                rw [ih g after (by omega) (by omega)]
              | none =>
                rw [tokenizeF_close_none h2.1 hnc h2.2 hbl,
                  tokenizeF_close_none h2.1 hnc h2.2 hbl]
          · by_cases h3 : (c = '<' ∧ (rest.head?.map Char.isAlpha).getD false = true)
            · have hnc : ¬startsWith rest "!--".data = true := fun hcon => h1 ⟨h3.1, hcon⟩
              have hnh : ¬rest.head? = some '/' := fun hcon => h2 ⟨h3.1, hcon⟩
              rw [tokenizeF_open h3.1 hnc hnh h3.2, tokenizeF_open h3.1 hnc hnh h3.2]
              have hpa : ((parseAttrs (rest.drop (rest.takeWhile tagChar).length)).2).length ≤
                  rest.length := by
                have h5 := parseAttrsF_snd_le
                  ((rest.drop (rest.takeWhile tagChar).length).length + 1)
                  (rest.drop (rest.takeWhile tagChar).length) []
                have h6 : ((rest.drop (rest.takeWhile tagChar).length)).length ≤ rest.length := by
                  simp only [List.length_drop]
                  omega
                exact Nat.le_trans h5 h6
              rw [ih g _ (by omega) (by omega)]
            · rw [tokenizeF_text h1 h2 h3, tokenizeF_text h1 h2 h3]
              by_cases he : ((takeRawText (c :: rest)).1).isEmpty = true
              · rw [if_pos he, if_pos he]
              · rw [if_neg he, if_neg he]
                have happ := takeRawText_append_eq (c :: rest)
                have hne : (takeRawText (c :: rest)).1 ≠ [] := by
                  intro hcon
                  rw [hcon] at he
                  exact he rfl
                have hlen : 1 ≤ ((takeRawText (c :: rest)).1).length :=
                  Nat.one_le_iff_ne_zero.mpr
                    (fun hz => hne (List.eq_nil_of_length_eq_zero hz))
                have hsum := congrArg List.length happ
                simp only [List.length_append, List.length_cons] at hsum
                rw [ih g _ (by omega) (by omega)]

theorem tokenize_eq (s : List Char) (f : Nat) (h : s.length < f) :
    tokenizeF f s = tokenize s :=
  tokenizeF_fuel f (s.length + 1) s h (by omega)

theorem buildNodes_text (fuel : Nat) (s : List Char) (rest : List Tok)
    (stop : Option (List Char)) :
    buildNodes (fuel + 1) (.tText s :: rest) stop =
      (.textF s (buildNodes fuel rest stop).1, (buildNodes fuel rest stop).2) := rfl

theorem buildNodes_comment (fuel : Nat) (s : List Char) (rest : List Tok)
    (stop : Option (List Char)) :
    buildNodes (fuel + 1) (.tComment s :: rest) stop =
      (.commentF s (buildNodes fuel rest stop).1, (buildNodes fuel rest stop).2) := rfl

theorem buildNodes_close (fuel : Nat) (name : List Char) (rest : List Tok)
    (stop : Option (List Char)) :
    buildNodes (fuel + 1) (.tClose name :: rest) stop =
      (if stop = some name then (.nilF, rest) else buildNodes fuel rest stop) := rfl

theorem buildNodes_open (fuel : Nat) (name : List Char)
    (attrs : List (List Char × List Char)) (rest : List Tok) (stop : Option (List Char)) :
    buildNodes (fuel + 1) (.tOpen name attrs :: rest) stop =
      (if name ∈ voidTags then
        (.elemF name attrs .nilF (buildNodes fuel rest stop).1, (buildNodes fuel rest stop).2)
       else
        (.elemF name attrs (buildNodes fuel rest (some name)).1
          (buildNodes fuel (buildNodes fuel rest (some name)).2 stop).1,
         (buildNodes fuel (buildNodes fuel rest (some name)).2 stop).2)) := rfl

theorem buildNodes_snd_len : ∀ (f : Nat) (toks : List Tok) (stop : Option (List Char)),
    ((buildNodes f toks stop).2).length ≤ toks.length := by
  intro f
  induction f with
  | zero => intro toks stop; exact Nat.le_refl _
  | succ f ih =>
    intro toks stop
    cases toks with
    | nil => exact Nat.zero_le _
    | cons tok rest =>
      cases tok with
      | tText s =>
        rw [buildNodes_text]
        have := ih rest stop
        simp only [List.length_cons]
        omega
      | tComment s =>
        rw [buildNodes_comment]
        have := ih rest stop
        simp only [List.length_cons]
        omega
      | tClose name =>
        rw [buildNodes_close]
        by_cases h : stop = some name
        · rw [if_pos h]
          simp only [List.length_cons]
          omega
        · rw [if_neg h]
          have := ih rest stop
          simp only [List.length_cons]
          omega
      | tOpen name attrs =>
        rw [buildNodes_open]
        by_cases h : name ∈ voidTags
        · rw [if_pos h]
          have := ih rest stop
          simp only [List.length_cons]
          omega
        · rw [if_neg h]
          have hc := ih rest (some name)
          have hs := ih (buildNodes f rest (some name)).2 stop
          simp only [List.length_cons]
          omega

theorem buildNodes_fuel : ∀ (f g : Nat) (toks : List Tok) (stop : Option (List Char)),
    toks.length < f → toks.length < g →
    buildNodes f toks stop = buildNodes g toks stop := by
  intro f
  induction f with
  | zero => intro g toks stop h; omega
  | succ f ih =>
    intro g toks stop hf hg
    cases g with
    | zero => omega
    | succ g =>
      cases toks with
      | nil => rfl
      | cons tok rest =>
        simp only [List.length_cons] at hf hg
        cases tok with
        | tText s =>
          rw [buildNodes_text, buildNodes_text, ih g rest stop (by omega) (by omega)]
        | tComment s =>
          rw [buildNodes_comment, buildNodes_comment, ih g rest stop (by omega) (by omega)]
        | tClose name =>
          rw [buildNodes_close, buildNodes_close]
          by_cases h : stop = some name
          · rw [if_pos h, if_pos h]
          · rw [if_neg h, if_neg h, ih g rest stop (by omega) (by omega)]
        | tOpen name attrs =>
          rw [buildNodes_open, buildNodes_open]
          by_cases h : name ∈ voidTags
          · rw [if_pos h, if_pos h, ih g rest stop (by omega) (by omega)]
          · rw [if_neg h, if_neg h]
            rw [ih g rest (some name) (by omega) (by omega)]
            have hc := buildNodes_snd_len g rest (some name)
            rw [ih g (buildNodes g rest (some name)).2 stop (by omega) (by omega)]

theorem buildNodes_eq (toks : List Tok) (stop : Option (List Char)) (f : Nat)
    (h : toks.length < f) : buildNodes f toks stop = buildAll toks stop :=
  buildNodes_fuel f (toks.length + 1) toks stop h (by omega)

/-! ### Round-trip of the attribute scanner on serialized attributes -/

theorem attrNameChar_facts {c : Char} (h : attrNameChar c = true) :
    ¬jsSpace c = true ∧ ¬c = '=' ∧ ¬c = '>' ∧ ¬c = '/' := by
  simp only [attrNameChar, Bool.or_eq_true, decide_eq_true_eq, not_or] at h
  exact ⟨h.1.1.1, h.1.1.2, h.1.2, h.2⟩

theorem attrsText_cons (p : List Char × List Char) (ps : List (List Char × List Char)) :
    attrsText (p :: ps) =
      (' ' :: (p.1 ++ '=' :: '"' :: (escAttr p.2 ++ ['"']))) ++ attrsText ps := by
  simp [attrsText]

theorem parseAttrsF_roundtrip : ∀ (ps acc : List (List Char × List Char)) (z : List Char)
    (f : Nat), (attrsText ps).length + z.length + 1 < f →
    (∀ p ∈ ps, wfName p.1) →
    ((ps.map Prod.fst).Pairwise (fun a b => a ≠ b)) →
    (∀ q ∈ acc, ∀ p ∈ ps, q.1 ≠ p.1) →
    parseAttrsF f (attrsText ps ++ '>' :: z) acc = (acc ++ ps, z) := by
  intro ps
  induction ps with
  | nil =>
    intro acc z f hf _ _ _
    cases f with
    | zero => omega
    | succ f1 =>
      show parseAttrsF (f1 + 1) ('>' :: z) acc = (acc ++ [], z)
      rw [parseAttrsF, if_pos rfl]
      simp
  | cons p ps' ih =>
    intro acc z f hf hwf hpw hdist
    obtain ⟨hne, hall, hlow⟩ := hwf p (by simp)
    have hallc : ∀ c ∈ p.1, attrNameChar c = true := by
      intro c hc
      exact List.all_eq_true.mp hall c hc
    obtain ⟨pn, p2⟩ := p
    cases pn with
    | nil => exact absurd rfl hne
    | cons n0 n' =>
      have hlenA : (attrsText ((n0 :: n', p2) :: ps')).length =
          (attrsText ps').length + (escAttr p2).length + n'.length + 5 := by
        rw [attrsText_cons]
        simp only [List.length_append, List.length_cons, List.length_nil]
        omega
      cases f with
      | zero => omega
      | succ f1 =>
        rw [attrsText_cons]
        rw [show ((' ' :: ((n0 :: n') ++ '=' :: '"' :: (escAttr p2 ++ ['"']))) ++
            attrsText ps') ++ '>' :: z =
            ' ' :: (n0 :: (n' ++ '=' :: '"' :: (escAttr p2 ++
              ('"' :: (attrsText ps' ++ '>' :: z))))) from by simp]
        rw [parseAttrsF, if_neg (by decide), if_pos (by decide)]
        cases f1 with
        | zero => omega
        | succ f2 =>
          rw [parseAttrsF]
          have hfacts := attrNameChar_facts (hallc n0 (by simp))
          rw [if_neg hfacts.2.2.1]
          rw [if_neg (by
            simp only [Bool.or_eq_true, decide_eq_true_eq]
            intro hcon
            rcases hcon with hcon | hcon
            · exact hfacts.1 hcon
            · exact hfacts.2.2.2 hcon)]
          have htw : (n0 :: (n' ++ '=' :: '"' :: (escAttr p2 ++
              ('"' :: (attrsText ps' ++ '>' :: z))))).takeWhile attrNameChar = n0 :: n' := by
            rw [show n0 :: (n' ++ '=' :: '"' :: (escAttr p2 ++
              ('"' :: (attrsText ps' ++ '>' :: z)))) =
              (n0 :: n') ++ '=' :: ('"' :: (escAttr p2 ++
                ('"' :: (attrsText ps' ++ '>' :: z)))) from by simp]
            exact takeWhile_append_all (n0 :: n') '=' _ hallc (by decide)
          simp only [htw]
          rw [if_neg (by simp)]
          have hdrop : (n0 :: (n' ++ '=' :: '"' :: (escAttr p2 ++
              ('"' :: (attrsText ps' ++ '>' :: z))))).drop (n0 :: n').length =
              '=' :: ('"' :: (escAttr p2 ++ ('"' :: (attrsText ps' ++ '>' :: z)))) := by
            rw [show n0 :: (n' ++ '=' :: '"' :: (escAttr p2 ++
              ('"' :: (attrsText ps' ++ '>' :: z)))) =
              (n0 :: n') ++ '=' :: ('"' :: (escAttr p2 ++
                ('"' :: (attrsText ps' ++ '>' :: z)))) from by simp]
            exact List.drop_left _ _
          rw [hdrop]
          have hpv : parseAttrValue ('=' :: ('"' :: (escAttr p2 ++
              ('"' :: (attrsText ps' ++ '>' :: z))))) =
              ((breakAtChar '"' (escAttr p2 ++ ('"' :: (attrsText ps' ++ '>' :: z)))).1,
               (breakAtChar '"' (escAttr p2 ++ ('"' :: (attrsText ps' ++ '>' :: z)))).2) := rfl
          rw [hpv]
          rw [breakAtChar_append (escAttr p2) _ (fun d hd hcon =>
            escAttr_no_quote p2 (by rw [← hcon]; exact hd))]
          rw [hlow]
          have hany : acc.any (fun q => q.1 = n0 :: n') = false := by
            rw [List.any_eq_false]
            intro q hq
            simp only [decide_eq_true_eq]
            exact hdist q hq (n0 :: n', p2) (by simp)
          rw [if_neg (by rw [hany]; simp)]
          rw [unescapeEnt_escAttr]
          have hres := ih (acc ++ [(n0 :: n', p2)]) z f2
            (by omega)
            (fun q hq => hwf q (by simp [hq]))
            (by
              have := List.pairwise_cons.mp hpw
              exact this.2)
            (by
              intro q hq p' hp'
              rcases List.mem_append.mp hq with hq | hq
              · exact hdist q hq p' (by simp [hp'])
              · have hq1 : q = (n0 :: n', p2) := by simpa using hq
                subst hq1
                have := (List.pairwise_cons.mp hpw).1
                exact this p'.1 (List.mem_map_of_mem Prod.fst hp'))
          rw [hres]
          rw [← List.append_cons]

/-! ### Tokenizer round-trip on serialized forests -/

theorem breakAtLit_single {c : Char} : ∀ (u w : List Char), (∀ d ∈ u, ¬d = c) →
    breakAtLit [c] (u ++ c :: w) = (u, some w) := by
  intro u
  induction u with
  | nil =>
    intro w _
    rw [List.nil_append, breakAtLit_cons_pos (by simp [startsWith])]
    simp
  | cons d u' ih =>
    intro w hu
    have hd : ¬d = c := hu d (by simp)
    rw [List.cons_append, @breakAtLit_cons_neg [c] d (u' ++ c :: w)
      (by simp [startsWith, hd]), ih w (fun x hx => hu x (by simp [hx]))]

theorem tagChar_ne_gt {d : Char} (hd : tagChar d = true) : ¬d = '>' := by
  intro hcon
  rw [hcon] at hd
  revert hd
  decide

theorem isAlpha_ne_bang {c : Char} (h : c.isAlpha = true) : ¬c = '!' := by
  intro hcon
  rw [hcon] at h
  revert h
  decide

theorem isAlpha_ne_slash {c : Char} (h : c.isAlpha = true) : ¬c = '/' := by
  intro hcon
  rw [hcon] at h
  revert h
  decide

theorem isAlpha_ne_lt {c : Char} (h : c.isAlpha = true) : ¬c = '<' := by
  intro hcon
  rw [hcon] at h
  revert h
  decide

theorem isTagStart_elem {t : List Char} (ht : wfTag t) (a : List (List Char × List Char))
    (cs next : DTree) (w : List Char) :
    isTagStart (serializeForest (.elemF t a cs next) ++ w) = true := by
  obtain ⟨⟨c0, tr, htEq, halpha⟩, _, _⟩ := ht
  subst htEq
  show isTagStart (('<' :: ((c0 :: tr) ++ _ ++ ['>'])) ++ _ ++ _ ++ w) = true
  simp [isTagStart, halpha]

theorem isTagStart_comment (s : List Char) (next : DTree) (w : List Char) :
    isTagStart (serializeForest (.commentF s next) ++ w) = true := by
  rw [show serializeForest (.commentF s next) ++ w =
    '<' :: '!' :: '-' :: '-' :: (s ++ ('-' :: '-' :: '>' :: (serializeForest next ++ w)))
    from by
      show ("<!--".data ++ s ++ "-->".data ++ serializeForest next) ++ w = _
      simp]
  simp [isTagStart, startsWith]

theorem tokenize_text_block (s r : List Char) (hs : s ≠ []) (hr : restOK r) :
    tokenize (escText s ++ r) = .tText s :: tokenize r := by
  have hne : escText s ≠ [] := escText_ne_nil hs
  have hu : ∀ c ∈ escText s, ¬c = '<' := fun c hc hcon =>
    escText_no_lt s (by rw [← hcon]; exact hc)
  cases hE : escText s with
  | nil => exact absurd hE hne
  | cons c0 u' =>
    have hc0 : ¬c0 = '<' := by
      apply hu
      rw [hE]
      simp
    show tokenizeF ((c0 :: (u' ++ r)).length + 1) (c0 :: (u' ++ r)) = _
    rw [show (c0 :: (u' ++ r)).length + 1 = (u' ++ r).length + 1 + 1 from by simp]
    rw [tokenizeF_text (fun hcon => hc0 hcon.1) (fun hcon => hc0 hcon.1)
      (fun hcon => hc0 hcon.1)]
    have htr : takeRawText (c0 :: (u' ++ r)) = (escText s, r) := by
      rw [show c0 :: (u' ++ r) = (c0 :: u') ++ r from rfl, ← hE]
      exact takeRawText_split (escText s) r hu hr
    rw [htr]
    rw [if_neg (by simp [hne])]
    rw [unescapeEnt_escText]
    have hlen : r.length < (u' ++ r).length + 1 := by
      simp only [List.length_append]
      omega
    rw [tokenize_eq r _ hlen]

theorem takeWhile_tag_split (t : List Char) (htAll : t.all tagChar = true)
    (a : List (List Char × List Char)) (Y : List Char) :
    (t ++ (attrsText a ++ '>' :: Y)).takeWhile tagChar = t := by
  have htc : ∀ c ∈ t, tagChar c = true := fun c hc => List.all_eq_true.mp htAll c hc
  cases a with
  | nil =>
    show (t ++ ([] ++ '>' :: Y)).takeWhile tagChar = t
    rw [List.nil_append]
    exact takeWhile_append_all t '>' Y htc (by decide)
  | cons p ps =>
    rw [attrsText_cons]
    rw [show (' ' :: (p.1 ++ '=' :: '"' :: (escAttr p.2 ++ ['"']))) ++ attrsText ps ++
      '>' :: Y = ' ' :: ((p.1 ++ '=' :: '"' :: (escAttr p.2 ++ ['"'])) ++ attrsText ps ++
      '>' :: Y) from by simp]
    exact takeWhile_append_all t ' ' _ htc (by decide)

theorem tokenize_open_block (t : List Char) (htag : wfTag t)
    (a : List (List Char × List Char)) (hattrs : wfAttrs a) (Y : List Char) :
    tokenize ('<' :: (t ++ (attrsText a ++ '>' :: Y))) = .tOpen t a :: tokenize Y := by
  obtain ⟨⟨c0, tr, htEq, halpha⟩, htAll, htLow⟩ := htag
  subst htEq
  show tokenizeF (((c0 :: tr) ++ (attrsText a ++ '>' :: Y)).length + 1 + 1)
    ('<' :: ((c0 :: tr) ++ (attrsText a ++ '>' :: Y))) = _
  rw [tokenizeF_open rfl
    (by
      show ¬startsWith (c0 :: (tr ++ (attrsText a ++ '>' :: Y))) "!--".data = true
      rw [show "!--".data = ['!', '-', '-'] from rfl]
      simp [startsWith, isAlpha_ne_bang halpha])
    (by
      show ¬(c0 :: (tr ++ (attrsText a ++ '>' :: Y))).head? = some '/'
      simp [isAlpha_ne_slash halpha])
    (by
      show ((c0 :: (tr ++ (attrsText a ++ '>' :: Y))).head?.map Char.isAlpha).getD false = true
      simp [halpha])]
  rw [takeWhile_tag_split (c0 :: tr) htAll a Y]
  rw [List.drop_left]
  have hpar : parseAttrs (attrsText a ++ '>' :: Y) = (a, Y) := by
    show parseAttrsF ((attrsText a ++ '>' :: Y).length + 1) (attrsText a ++ '>' :: Y) [] = _
    rw [parseAttrsF_roundtrip a [] Y _
      (by simp only [List.length_append, List.length_cons]; omega)
      hattrs.1
      (by
        have := hattrs.2
        exact this.imp (fun hne => hne))
      (by intro q hq; simp at hq)]
    rw [List.nil_append]
  rw [hpar]
  rw [htLow]
  have hlen : Y.length < ((c0 :: tr) ++ (attrsText a ++ '>' :: Y)).length + 1 := by
    simp only [List.length_append, List.length_cons]
    omega
  rw [tokenize_eq Y _ hlen]

theorem tokenize_close_block (t : List Char) (htag : wfTag t) (tail3 : List Char) :
    tokenize ('<' :: '/' :: (t ++ '>' :: tail3)) = .tClose t :: tokenize tail3 := by
  obtain ⟨⟨c0, tr, htEq, halpha⟩, htAll, htLow⟩ := htag
  have htc : ∀ c ∈ t, tagChar c = true := fun c hc => List.all_eq_true.mp htAll c hc
  show tokenizeF (('/' :: (t ++ '>' :: tail3)).length + 1 + 1) _ = _
  rw [tokenizeF_close_some rfl
    (by
      rw [show "!--".data = ['!', '-', '-'] from rfl]
      simp [startsWith])
    (by simp)
    (by
      show breakAtLit ">".data (t ++ '>' :: tail3) = (t, some tail3)
      rw [show ">".data = ['>'] from rfl]
      exact breakAtLit_single t tail3 (fun d hd => tagChar_ne_gt (htc d hd)))]
  rw [show ('/' :: (t ++ '>' :: tail3)).tail = t ++ '>' :: tail3 from rfl]
  rw [takeWhile_append_all t '>' tail3 htc (by decide)]
  rw [if_neg (by subst htEq; simp)]
  rw [htLow]
  have hlen : tail3.length < ('/' :: (t ++ '>' :: tail3)).length + 1 := by
    simp only [List.length_append, List.length_cons]
    omega
  rw [tokenize_eq tail3 _ hlen]

theorem tokenize_serialize : ∀ (m : DTree) (r : List Char), wfF true m → restOK r →
    tokenize (serializeForest m ++ r) = forestToks m ++ tokenize r := by
  intro m
  induction m with
  | nilF =>
    intro r _ _
    show tokenize ([] ++ r) = [] ++ tokenize r
    rw [List.nil_append, List.nil_append]
  | textF s next ihn =>
    intro r hm hr
    obtain ⟨hs, hnt, hwn⟩ := hm
    show tokenize ((escText s ++ serializeForest next) ++ r) = _
    rw [List.append_assoc]
    cases next with
    | nilF =>
      show tokenize (escText s ++ ([] ++ r)) = (.tText s :: ([] : List Tok)) ++ tokenize r
      rw [List.nil_append]
      rw [tokenize_text_block s r hs hr]
      rfl
    | elemF t' a' cs' nx' =>
      have hwn2 := hwn
      obtain ⟨ht', ha', hv', hwc', hwn'⟩ := hwn2
      rw [tokenize_text_block s _ hs (Or.inr (isTagStart_elem ht' a' cs' nx' r))]
      rw [ihn r hwn hr]
      rfl
    | textF s2 nx2 => exact absurd (hnt rfl) (by simp [notText])
    | commentF s2 nx2 =>
      rw [tokenize_text_block s _ hs (Or.inr (isTagStart_comment s2 nx2 r))]
      rw [ihn r hwn hr]
      rfl
  | commentF s next ihn =>
    intro r hm hr
    obtain ⟨hcl, hwn⟩ := hm
    have hform : serializeForest (.commentF s next) ++ r =
        '<' :: ('!' :: '-' :: '-' :: (s ++ '-' :: '-' :: '>' ::
          (serializeForest next ++ r))) := by
      show ("<!--".data ++ s ++ "-->".data ++ serializeForest next) ++ r = _
      simp
    rw [hform]
    have hcl2 : containsLit ['-', '-', '>'] s = false := by
      rw [show (['-', '-', '>'] : List Char) = "-->".data from rfl]
      exact hcl
    show tokenizeF (('!' :: '-' :: '-' :: (s ++ '-' :: '-' :: '>' ::
      (serializeForest next ++ r))).length + 1 + 1) _ = _
    rw [tokenizeF_comment_some rfl (by simp [startsWith])
      (by
        show breakAtLit "-->".data (s ++ '-' :: '-' :: '>' :: (serializeForest next ++ r)) =
          (s, some (serializeForest next ++ r))
        rw [show "-->".data = ['-', '-', '>'] from rfl]
        exact breakAtLit_marker s _ hcl2)]
    have hlen : (serializeForest next ++ r).length <
        ('!' :: '-' :: '-' :: (s ++ '-' :: '-' :: '>' :: (serializeForest next ++ r))).length
          + 1 := by
      simp only [List.length_cons, List.length_append]
      omega
    rw [tokenize_eq _ _ hlen, ihn r hwn hr]
    rfl
  | elemF t a cs next ihc ihn =>
    intro r hm hr
    obtain ⟨htag, hattrs, hvoid, hwc, hwn⟩ := hm
    have hform : serializeForest (.elemF t a cs next) ++ r =
        '<' :: (t ++ (attrsText a ++ '>' ::
          ((if t ∈ voidTags then []
            else serializeForest cs ++ ('<' :: '/' :: (t ++ ['>']))) ++
           (serializeForest next ++ r)))) := by
      show ('<' :: (t ++ attrsText a ++ ['>']) ++ _ ++ serializeForest next) ++ r = _
      simp
    rw [hform]
    by_cases hvd : t ∈ voidTags
    · rw [if_pos hvd, List.nil_append]
      rw [tokenize_open_block t htag a hattrs _]
      rw [ihn _ hwn hr]
      show _ = .tOpen t a :: ((if t ∈ voidTags then [] else forestToks cs ++ [.tClose t]) ++
        forestToks next) ++ tokenize r
      rw [if_pos hvd, List.nil_append]
      rfl
    · rw [if_neg hvd]
      rw [tokenize_open_block t htag a hattrs _]
      rw [show (serializeForest cs ++ '<' :: '/' :: (t ++ ['>'])) ++
          (serializeForest next ++ r) =
        serializeForest cs ++ ('<' :: '/' :: (t ++ '>' :: (serializeForest next ++ r)))
        from by simp]
      rw [ihc _ hwc (Or.inr (by
        obtain ⟨⟨c0, tr, htEq, halpha⟩, htAll, htLow⟩ := htag
        rfl))]
      rw [tokenize_close_block t htag _]
      rw [ihn _ hwn hr]
      show _ = .tOpen t a :: ((if t ∈ voidTags then [] else forestToks cs ++ [.tClose t]) ++
        forestToks next) ++ tokenize r
      rw [if_neg hvd]
      simp

/-! ### Builder round-trip on serialized token streams -/

theorem tokenize_serialize_nil (m : DTree) (hm : wfF true m) :
    tokenize (serializeForest m) = forestToks m := by
  have h := tokenize_serialize m [] hm (Or.inl rfl)
  rw [List.append_nil] at h
  rw [h]
  show forestToks m ++ tokenize [] = forestToks m
  rw [show tokenize [] = [] from rfl, List.append_nil]

theorem appendF_nilF : ∀ (m : DTree), appendF m .nilF = m := by
  intro m
  induction m with
  | nilF => rfl
  | elemF t a cs next ihc ihn => rw [appendF, ihn]
  | textF s next ihn => rw [appendF, ihn]
  | commentF s next ihn => rw [appendF, ihn]

theorem buildAll_forestToks : ∀ (m : DTree), wfF true m → ∀ (ts : List Tok)
    (stop : Option (List Char)),
    buildAll (forestToks m ++ ts) stop =
      (appendF m (buildAll ts stop).1, (buildAll ts stop).2) := by
  intro m
  induction m with
  | nilF =>
    intro _ ts stop
    show buildAll ([] ++ ts) stop = _
    rw [List.nil_append]
    show buildAll ts stop = ((buildAll ts stop).1, (buildAll ts stop).2)
    rfl
  | textF s next ihn =>
    intro hm ts stop
    obtain ⟨hs, hnt, hwn⟩ := hm
    show buildNodes ((forestToks next ++ ts).length + 1 + 1)
      (.tText s :: (forestToks next ++ ts)) stop = _
    rw [buildNodes_text]
    rw [show buildNodes ((forestToks next ++ ts).length + 1) (forestToks next ++ ts) stop =
      buildAll (forestToks next ++ ts) stop from rfl]
    rw [ihn hwn ts stop]
    rfl
  | commentF s next ihn =>
    intro hm ts stop
    obtain ⟨hcl, hwn⟩ := hm
    show buildNodes ((forestToks next ++ ts).length + 1 + 1)
      (.tComment s :: (forestToks next ++ ts)) stop = _
    rw [buildNodes_comment]
    rw [show buildNodes ((forestToks next ++ ts).length + 1) (forestToks next ++ ts) stop =
      buildAll (forestToks next ++ ts) stop from rfl]
    rw [ihn hwn ts stop]
    rfl
  | elemF t a cs next ihc ihn =>
    intro hm ts stop
    obtain ⟨htag, hattrs, hvoid, hwc, hwn⟩ := hm
    by_cases hvd : t ∈ voidTags
    · have hcs : cs = .nilF := hvoid hvd
      subst hcs
      rw [show forestToks (.elemF t a .nilF next) ++ ts =
        .tOpen t a :: (forestToks next ++ ts) from by
          show .tOpen t a :: (((if t ∈ voidTags then [] else forestToks .nilF ++ [.tClose t]) ++
            forestToks next) ++ ts) = _
          rw [if_pos hvd, List.nil_append]]
      show buildNodes ((forestToks next ++ ts).length + 1 + 1)
        (.tOpen t a :: (forestToks next ++ ts)) stop = _
      rw [buildNodes_open, if_pos hvd]
      rw [show buildNodes ((forestToks next ++ ts).length + 1) (forestToks next ++ ts) stop =
        buildAll (forestToks next ++ ts) stop from rfl]
      rw [ihn hwn ts stop]
      rfl
    · rw [show forestToks (.elemF t a cs next) ++ ts =
        .tOpen t a :: (forestToks cs ++ (.tClose t :: (forestToks next ++ ts))) from by
          show .tOpen t a :: (((if t ∈ voidTags then [] else forestToks cs ++ [.tClose t]) ++
            forestToks next) ++ ts) = _
          rw [if_neg hvd]
          simp]
      show buildNodes ((forestToks cs ++ (.tClose t :: (forestToks next ++ ts))).length + 1 + 1)
        (.tOpen t a :: (forestToks cs ++ (.tClose t :: (forestToks next ++ ts)))) stop = _
      rw [buildNodes_open, if_neg hvd]
      rw [show buildNodes ((forestToks cs ++ (.tClose t :: (forestToks next ++ ts))).length + 1)
        (forestToks cs ++ (.tClose t :: (forestToks next ++ ts))) (some t) =
        buildAll (forestToks cs ++ (.tClose t :: (forestToks next ++ ts))) (some t) from rfl]
      rw [ihc hwc (.tClose t :: (forestToks next ++ ts)) (some t)]
      rw [show buildAll (.tClose t :: (forestToks next ++ ts)) (some t) =
        (.nilF, forestToks next ++ ts) from by
          show buildNodes ((forestToks next ++ ts).length + 1 + 1)
            (.tClose t :: (forestToks next ++ ts)) (some t) = _
          rw [buildNodes_close, if_pos rfl]]
      rw [appendF_nilF]
      have hbe : buildNodes ((forestToks cs ++
          (.tClose t :: (forestToks next ++ ts))).length + 1)
          (forestToks next ++ ts) stop = buildAll (forestToks next ++ ts) stop := by
        apply buildNodes_eq
        simp only [List.length_append, List.length_cons]
        omega
      rw [hbe]
      rw [ihn hwn ts stop]
      rfl

theorem parse_serialize (m : DTree) (hm : wfF true m) :
    parseHtml (serializeForest m) = m := by
  show (buildNodes ((tokenize (serializeForest m)).length + 1)
    (tokenize (serializeForest m)) none).1 = m
  rw [tokenize_serialize_nil m hm]
  have h1 : buildAll (forestToks m) none = (m, []) := by
    have h2 := buildAll_forestToks m hm [] none
    rw [List.append_nil] at h2
    rw [h2]
    rw [show buildAll [] none = (.nilF, []) from rfl]
    rw [appendF_nilF]
  show (buildAll (forestToks m) none).1 = m
  rw [h1]

/-! ### Well-formedness of the parser output -/

theorem wfName_lower {n : List Char} (hne : n ≠ [])
    (hall : ∀ c ∈ n, attrNameChar c = true) : wfName (lowerS n) := by
  refine ⟨?_, ?_, lowerS_idem n⟩
  · cases n with
    | nil => exact absurd rfl hne
    | cons c r => simp [lowerS]
  · rw [List.all_eq_true]
    intro x hx
    simp only [lowerS, List.mem_map] at hx
    obtain ⟨d, hd, hdx⟩ := hx
    rw [← hdx]
    exact lowerC_attrNameChar (hall d hd)

theorem wfTag_lower {c0 : Char} {r : List Char} (halpha : c0.isAlpha = true)
    (hall : ∀ c ∈ c0 :: r, tagChar c = true) : wfTag (lowerS (c0 :: r)) := by
  refine ⟨⟨lowerC c0, lowerS r, rfl, lowerC_isAlpha halpha⟩, ?_, lowerS_idem _⟩
  rw [List.all_eq_true]
  intro x hx
  simp only [lowerS, List.mem_map] at hx
  obtain ⟨d, hd, hdx⟩ := hx
  rw [← hdx]
  exact lowerC_tagChar (hall d hd)

theorem parseAttrsF_wf : ∀ (f : Nat) (s : List Char) (acc : List (List Char × List Char)),
    (∀ p ∈ acc, wfName p.1) → ((acc.map Prod.fst).Pairwise (fun a b => a ≠ b)) →
    (∀ p ∈ (parseAttrsF f s acc).1, wfName p.1) ∧
      (((parseAttrsF f s acc).1.map Prod.fst).Pairwise (fun a b => a ≠ b)) := by
  intro f
  induction f with
  | zero => intro s acc h1 h2; exact ⟨h1, h2⟩
  | succ f ih =>
    intro s acc h1 h2
    cases s with
    | nil => exact ⟨h1, h2⟩
    | cons c rest =>
      rw [parseAttrsF]
      by_cases hc1 : c = '>'
      · rw [if_pos hc1]
        exact ⟨h1, h2⟩
      · rw [if_neg hc1]
        by_cases hc2 : (jsSpace c || c = '/') = true
        · rw [if_pos hc2]
          exact ih rest acc h1 h2
        · rw [if_neg hc2]
          simp only []
          by_cases hc3 : ((c :: rest).takeWhile attrNameChar).isEmpty = true
          · rw [if_pos hc3]
            exact ih rest acc h1 h2
          · rw [if_neg hc3]
            by_cases hdup : acc.any
                (fun p => p.1 = lowerS ((c :: rest).takeWhile attrNameChar)) = true
            · rw [if_pos hdup]
              exact ih _ acc h1 h2
            · rw [if_neg hdup]
              have hne : (c :: rest).takeWhile attrNameChar ≠ [] := by
                intro hcon
                rw [hcon] at hc3
                exact hc3 rfl
              have hnm : wfName (lowerS ((c :: rest).takeWhile attrNameChar)) :=
                wfName_lower hne (fun d hd => List.mem_takeWhile_imp hd)
              apply ih
              · intro p hp
                rcases List.mem_append.mp hp with hp | hp
                · exact h1 p hp
                · have : p = (lowerS ((c :: rest).takeWhile attrNameChar),
                      unescapeEnt (parseAttrValue ((c :: rest).drop
                        ((c :: rest).takeWhile attrNameChar).length)).1) := by
                    simpa using hp
                  rw [this]
                  exact hnm
              · rw [List.map_append, List.pairwise_append]
                refine ⟨h2, by simp, ?_⟩
                intro x hx y hy
                have hdup2 : (acc.any
                    (fun p => p.1 = lowerS ((c :: rest).takeWhile attrNameChar))) = false :=
                  Bool.eq_false_iff.mpr hdup
                rw [List.any_eq_false] at hdup2
                simp only [List.map_cons, List.map_nil, List.mem_singleton] at hy
                rw [List.mem_map] at hx
                obtain ⟨q, hq, hqx⟩ := hx
                have hqd := hdup2 q hq
                simp only [decide_eq_true_eq] at hqd
                rw [← hqx, hy]
                exact hqd

theorem tokenizeF_wf : ∀ (f : Nat) (s : List Char), ∀ tok ∈ tokenizeF f s, wfTok tok := by
  intro f
  induction f with
  | zero => intro s tok h; exact absurd h (by simp [tokenizeF])
  | succ f ih =>
    intro s tok hmem
    cases s with
    | nil => exact absurd hmem (by simp [tokenizeF])
    | cons c rest =>
      by_cases h1 : (c = '<' ∧ startsWith rest "!--".data = true)
      · cases hbl : breakAtLit "-->".data (rest.drop 3) with
        | mk content r =>
          cases r with
          | some after =>
            rw [tokenizeF_comment_some h1.1 h1.2 hbl] at hmem
            rcases List.mem_cons.mp hmem with hmem | hmem
            · rw [hmem]
              exact breakAtLit_fst_clean _ _ _ hbl
            · exact ih after tok hmem
          | none =>
            rw [tokenizeF_comment_none h1.1 h1.2 hbl] at hmem
            have : tok = .tComment content := by simpa using hmem
            rw [this]
            exact breakAtLit_fst_clean _ _ _ hbl
      · by_cases h2 : (c = '<' ∧ rest.head? = some '/')
        · have hnc : ¬startsWith rest "!--".data = true := fun hcon => h1 ⟨h2.1, hcon⟩
          cases hbl : breakAtLit ">".data rest.tail with
          | mk b r =>
            cases r with
            | some after =>
              rw [tokenizeF_close_some h2.1 hnc h2.2 hbl] at hmem
              by_cases hemp : (rest.tail.takeWhile tagChar).isEmpty = true
              · rw [if_pos hemp] at hmem
                exact ih after tok hmem
              · rw [if_neg hemp] at hmem
                rcases List.mem_cons.mp hmem with hmem | hmem
                · rw [hmem]
                  exact True.intro
                · exact ih after tok hmem
            | none =>
              rw [tokenizeF_close_none h2.1 hnc h2.2 hbl] at hmem
              exact absurd hmem (by simp)
        · by_cases h3 : (c = '<' ∧ (rest.head?.map Char.isAlpha).getD false = true)
          · have hnc : ¬startsWith rest "!--".data = true := fun hcon => h1 ⟨h3.1, hcon⟩
            have hnh : ¬rest.head? = some '/' := fun hcon => h2 ⟨h3.1, hcon⟩
            rw [tokenizeF_open h3.1 hnc hnh h3.2] at hmem
            rcases List.mem_cons.mp hmem with hmem | hmem
            · rw [hmem]
              cases rest with
              | nil => exact absurd h3.2 (by simp)
              | cons r0 rest' =>
                have halpha : r0.isAlpha = true := by simpa using h3.2
                have htw : (r0 :: rest').takeWhile tagChar =
                    r0 :: rest'.takeWhile tagChar := by
                  rw [List.takeWhile_cons, if_pos (by simp [tagChar, halpha])]
                constructor
                · rw [htw]
                  exact wfTag_lower halpha (fun d hd => List.mem_takeWhile_imp (htw ▸ hd))
                · constructor
                  · intro p hp
                    exact ((parseAttrsF_wf _ _ [] (by simp) (by simp)).1 p hp)
                  · exact ((parseAttrsF_wf _ _ [] (by simp) (by simp)).2)
            · exact ih _ tok hmem
          · rw [tokenizeF_text h1 h2 h3] at hmem
            by_cases hemp : ((takeRawText (c :: rest)).1).isEmpty = true
            · rw [if_pos hemp] at hmem
              exact absurd hmem (by simp)
            · rw [if_neg hemp] at hmem
              rcases List.mem_cons.mp hmem with hmem | hmem
              · rw [hmem]
                apply unescapeEnt_ne_nil
                intro hcon
                rw [hcon] at hemp
                exact hemp rfl
              · exact ih _ tok hmem

theorem buildNodes_wf : ∀ (f : Nat) (toks : List Tok) (stop : Option (List Char)),
    (∀ tok ∈ toks, wfTok tok) →
    wfF false (buildNodes f toks stop).1 ∧
      (∀ tok ∈ (buildNodes f toks stop).2, wfTok tok) := by
  intro f
  induction f with
  | zero => intro toks stop h; exact ⟨True.intro, h⟩
  | succ f ih =>
    intro toks stop h
    cases toks with
    | nil =>
      rw [show buildNodes (f + 1) ([] : List Tok) stop = (.nilF, []) from rfl]
      exact ⟨True.intro, by simp⟩
    | cons tok rest =>
      have htok : wfTok tok := h tok (by simp)
      have hrest : ∀ t ∈ rest, wfTok t := fun t ht => h t (by simp [ht])
      cases tok with
      | tText s =>
        rw [buildNodes_text]
        refine ⟨⟨htok, by simp, (ih rest stop hrest).1⟩, (ih rest stop hrest).2⟩
      | tComment s =>
        rw [buildNodes_comment]
        refine ⟨⟨htok, (ih rest stop hrest).1⟩, (ih rest stop hrest).2⟩
      | tClose name =>
        rw [buildNodes_close]
        by_cases hs : stop = some name
        · rw [if_pos hs]
          exact ⟨True.intro, hrest⟩
        · rw [if_neg hs]
          exact ih rest stop hrest
      | tOpen name attrs =>
        rw [buildNodes_open]
        by_cases hv : name ∈ voidTags
        · rw [if_pos hv]
          exact ⟨⟨htok.1, htok.2, fun _ => rfl, True.intro, (ih rest stop hrest).1⟩,
            (ih rest stop hrest).2⟩
        · rw [if_neg hv]
          have hc := ih rest (some name) hrest
          have hs := ih (buildNodes f rest (some name)).2 stop hc.2
          exact ⟨⟨htok.1, htok.2, fun hcon => absurd hcon hv, hc.1, hs.1⟩, hs.2⟩

theorem parseHtml_wf (x : List Char) : wfF false (parseHtml x) :=
  (buildNodes_wf ((tokenize x).length + 1) (tokenize x) none
    (fun tok h => tokenizeF_wf (x.length + 1) x tok h)).1

/-! ### `cleanForest` and text-node merging -/

theorem cleanForest_elem (t : List Char) (a : List (List Char × List Char))
    (cs next : DTree) :
    cleanForest (.elemF t a cs next) =
      if keepElem t a (cleanForest cs) then
        .elemF t a (cleanForest cs) (cleanForest next)
      else cleanForest next := rfl

theorem cleanForest_wf : ∀ (m : DTree), wfF false m → wfF false (cleanForest m) := by
  intro m
  induction m with
  | nilF => intro h; exact h
  | elemF t a cs next ihc ihn =>
    intro hm
    obtain ⟨ht, ha, hv, hwc, hwn⟩ := hm
    rw [cleanForest_elem]
    by_cases hk : keepElem t a (cleanForest cs) = true
    · rw [if_pos hk]
      refine ⟨ht, ha, ?_, ihc hwc, ihn hwn⟩
      intro hvd
      rw [hv hvd]
      rfl
    · rw [if_neg hk]
      exact ihn hwn
  | textF s next ihn =>
    intro hm
    obtain ⟨hs, _, hwn⟩ := hm
    exact ⟨hs, by simp, ihn hwn⟩
  | commentF s next ihn =>
    intro hm
    obtain ⟨hcl, hwn⟩ := hm
    exact ⟨hcl, ihn hwn⟩

theorem mergeT_wf : ∀ (m : DTree), wfF false m → wfF true (mergeT m) := by
  intro m
  induction m with
  | nilF => intro h; exact h
  | elemF t a cs next ihc ihn =>
    intro hm
    obtain ⟨ht, ha, hv, hwc, hwn⟩ := hm
    refine ⟨ht, ha, ?_, ihc hwc, ihn hwn⟩
    intro hvd
    rw [hv hvd]
    rfl
  | textF s next ihn =>
    intro hm
    obtain ⟨hs, _, hwn⟩ := hm
    have ih := ihn hwn
    show wfF true (match mergeT next with
      | .textF s2 next2 => .textF (s ++ s2) next2
      | other => .textF s other)
    cases hmn : mergeT next with
    | textF s2 n2 =>
      rw [hmn] at ih
      obtain ⟨hs2, hnt2, hwn2⟩ := ih
      exact ⟨fun hcon => hs (List.append_eq_nil.mp hcon).1, hnt2, hwn2⟩
    | nilF =>
      rw [hmn] at ih
      exact ⟨hs, fun _ => True.intro, ih⟩
    | elemF t2 a2 cs2 n2 =>
      rw [hmn] at ih
      exact ⟨hs, fun _ => True.intro, ih⟩
    | commentF s2 n2 =>
      rw [hmn] at ih
      exact ⟨hs, fun _ => True.intro, ih⟩
  | commentF s next ihn =>
    intro hm
    obtain ⟨hcl, hwn⟩ := hm
    exact ⟨hcl, ihn hwn⟩

theorem mergeT_textContent : ∀ (m : DTree), textContent (mergeT m) = textContent m := by
  intro m
  induction m with
  | nilF => rfl
  | elemF t a cs next ihc ihn =>
    show textContent (.elemF t a (mergeT cs) (mergeT next)) = _
    show textContent (mergeT cs) ++ textContent (mergeT next) = _
    rw [ihc, ihn]
    rfl
  | textF s next ihn =>
    show textContent (match mergeT next with
      | .textF s2 next2 => .textF (s ++ s2) next2
      | other => .textF s other) = s ++ textContent next
    cases hmn : mergeT next with
    | textF s2 n2 =>
      show (s ++ s2) ++ textContent n2 = s ++ textContent next
      rw [← ihn, hmn]
      show (s ++ s2) ++ textContent n2 = s ++ (s2 ++ textContent n2)
      rw [List.append_assoc]
    | nilF =>
      show s ++ textContent .nilF = s ++ textContent next
      rw [← ihn, hmn]
    | elemF t2 a2 cs2 n2 =>
      show s ++ textContent (.elemF t2 a2 cs2 n2) = s ++ textContent next
      rw [← ihn, hmn]
    | commentF s2 n2 =>
      show s ++ textContent (.commentF s2 n2) = s ++ textContent next
      rw [← ihn, hmn]
  | commentF s next ihn =>
    show textContent (.commentF s (mergeT next)) = _
    show textContent (mergeT next) = textContent next
    exact ihn

theorem mergeT_elemCount : ∀ (m : DTree), elemCount (mergeT m) = elemCount m := by
  intro m
  induction m with
  | nilF => rfl
  | elemF t a cs next ihc ihn =>
    show elemCount (.elemF t a (mergeT cs) (mergeT next)) = _
    show elemCount (mergeT next) + 1 = elemCount next + 1
    rw [ihn]
  | textF s next ihn =>
    show elemCount (match mergeT next with
      | .textF s2 next2 => .textF (s ++ s2) next2
      | other => .textF s other) = elemCount next
    cases hmn : mergeT next with
    | textF s2 n2 =>
      show elemCount n2 = elemCount next
      rw [← ihn, hmn]
      rfl
    | nilF =>
      show elemCount .nilF = elemCount next
      rw [← ihn, hmn]
    | elemF t2 a2 cs2 n2 =>
      show elemCount (.elemF t2 a2 cs2 n2) = elemCount next
      rw [← ihn, hmn]
    | commentF s2 n2 =>
      show elemCount (.commentF s2 n2) = elemCount next
      rw [← ihn, hmn]
  | commentF s next ihn =>
    show elemCount (.commentF s (mergeT next)) = _
    exact ihn

theorem keepElem_mergeT (t : List Char) (a : List (List Char × List Char)) (u : DTree) :
    keepElem t a (mergeT u) = keepElem t a u := by
  unfold keepElem
  rw [mergeT_elemCount, mergeT_textContent]

theorem serialize_mergeT : ∀ (m : DTree),
    serializeForest (mergeT m) = serializeForest m := by
  intro m
  induction m with
  | nilF => rfl
  | elemF t a cs next ihc ihn =>
    show serializeForest (.elemF t a (mergeT cs) (mergeT next)) = _
    show '<' :: (t ++ _ ++ ['>']) ++
        (if t ∈ voidTags then [] else serializeForest (mergeT cs) ++ _) ++
        serializeForest (mergeT next) = _
    rw [ihc, ihn]
    rfl
  | textF s next ihn =>
    show serializeForest (match mergeT next with
      | .textF s2 next2 => .textF (s ++ s2) next2
      | other => .textF s other) = escText s ++ serializeForest next
    cases hmn : mergeT next with
    | textF s2 n2 =>
      show escText (s ++ s2) ++ serializeForest n2 = escText s ++ serializeForest next
      rw [← ihn, hmn]
      show escText (s ++ s2) ++ serializeForest n2 =
        escText s ++ (escText s2 ++ serializeForest n2)
      rw [escText_append, List.append_assoc]
    | nilF =>
      show escText s ++ serializeForest .nilF = _
      rw [← ihn, hmn]
    | elemF t2 a2 cs2 n2 =>
      show escText s ++ serializeForest (.elemF t2 a2 cs2 n2) = _
      rw [← ihn, hmn]
    | commentF s2 n2 =>
      show escText s ++ serializeForest (.commentF s2 n2) = _
      rw [← ihn, hmn]
  | commentF s next ihn =>
    show "<!--".data ++ s ++ "-->".data ++ serializeForest (mergeT next) = _
    rw [ihn]
    rfl

theorem cleanForest_idem : ∀ (m : DTree), cleanForest (cleanForest m) = cleanForest m := by
  intro m
  induction m with
  | nilF => rfl
  | elemF t a cs next ihc ihn =>
    rw [cleanForest_elem]
    by_cases hk : keepElem t a (cleanForest cs) = true
    · rw [if_pos hk, cleanForest_elem, ihc]
      rw [if_pos hk, ihn]
    · rw [if_neg hk]
      exact ihn
  | textF s next ihn =>
    show cleanForest (.textF s (cleanForest next)) = _
    show DTree.textF s (cleanForest (cleanForest next)) = _
    rw [ihn]
    rfl
  | commentF s next ihn =>
    show DTree.commentF s (cleanForest (cleanForest next)) = _
    rw [ihn]
    rfl

theorem tsize_clean_le : ∀ (m : DTree), tsize (cleanForest m) ≤ tsize m := by
  intro m
  induction m with
  | nilF => exact Nat.le_refl _
  | elemF t a cs next ihc ihn =>
    rw [cleanForest_elem]
    by_cases hk : keepElem t a (cleanForest cs) = true
    · rw [if_pos hk]
      show tsize (cleanForest cs) + tsize (cleanForest next) + 1 ≤ tsize cs + tsize next + 1
      omega
    · rw [if_neg hk]
      show tsize (cleanForest next) ≤ tsize cs + tsize next + 1
      omega
  | textF s next ihn =>
    show tsize (cleanForest next) ≤ tsize next
    exact ihn
  | commentF s next ihn =>
    show tsize (cleanForest next) ≤ tsize next
    exact ihn

theorem clean_mergeT : ∀ (m : DTree), cleanForest m = m →
    cleanForest (mergeT m) = mergeT m := by
  intro m
  induction m with
  | nilF => intro _; rfl
  | elemF t a cs next ihc ihn =>
    intro h
    rw [cleanForest_elem] at h
    by_cases hk : keepElem t a (cleanForest cs) = true
    · rw [if_pos hk] at h
      injection h with _ _ hcs hnext
      show cleanForest (.elemF t a (mergeT cs) (mergeT next)) = .elemF t a (mergeT cs)
        (mergeT next)
      rw [cleanForest_elem, ihc hcs]
      rw [if_pos (by
        rw [keepElem_mergeT, ← hcs]
        exact hk)]
      rw [ihn hnext]
    · rw [if_neg hk] at h
      have h1 := tsize_clean_le next
      rw [h] at h1
      have h2 : tsize (DTree.elemF t a cs next) = tsize cs + tsize next + 1 := rfl
      omega
  | textF s next ihn =>
    intro h
    have hnext : cleanForest next = next := by
      have : cleanForest (.textF s next) = .textF s (cleanForest next) := rfl
      rw [this] at h
      injection h
    have hmm := ihn hnext
    show cleanForest (match mergeT next with
      | .textF s2 next2 => .textF (s ++ s2) next2
      | other => .textF s other) = (match mergeT next with
      | .textF s2 next2 => .textF (s ++ s2) next2
      | other => .textF s other)
    cases hmn : mergeT next with
    | textF s2 n2 =>
      rw [hmn] at hmm
      have hn2 : cleanForest n2 = n2 := by
        have heq : cleanForest (.textF s2 n2) = .textF s2 (cleanForest n2) := rfl
        rw [heq] at hmm
        injection hmm
      show DTree.textF (s ++ s2) (cleanForest n2) = .textF (s ++ s2) n2
      rw [hn2]
    | nilF => rfl
    | elemF t2 a2 cs2 n2 =>
      rw [hmn] at hmm
      show DTree.textF s (cleanForest (.elemF t2 a2 cs2 n2)) = .textF s (.elemF t2 a2 cs2 n2)
      rw [hmm]
    | commentF s2 n2 =>
      rw [hmn] at hmm
      show DTree.textF s (cleanForest (.commentF s2 n2)) = .textF s (.commentF s2 n2)
      rw [hmm]
  | commentF s next ihn =>
    intro h
    have hnext : cleanForest next = next := by
      have : cleanForest (.commentF s next) = .commentF s (cleanForest next) := rfl
      rw [this] at h
      injection h
    show DTree.commentF s (cleanForest (mergeT next)) = .commentF s (mergeT next)
    rw [ihn hnext]

/-- C8 — **confirmed.**  `normalize` (`cleanHtml`) is idempotent: for every
input string, parsing into the modelled DOM, pruning empty elements
bottom-up and serializing back is a fixed point after one application.
The second parse sees exactly the cleaned forest (with adjacent text nodes
fused), and pruning removes nothing further. -/
theorem C8_normalize_idempotent (x : List Char) :
    cleanHtml (cleanHtml x) = cleanHtml x := by
  show serializeForest (cleanForest (parseHtml
    (serializeForest (cleanForest (parseHtml x))))) =
    serializeForest (cleanForest (parseHtml x))
  have hwf0 : wfF false (parseHtml x) := parseHtml_wf x
  have hwf1 : wfF false (cleanForest (parseHtml x)) := cleanForest_wf _ hwf0
  have hwtrue : wfF true (mergeT (cleanForest (parseHtml x))) := mergeT_wf _ hwf1
  rw [← serialize_mergeT (cleanForest (parseHtml x))]
  rw [parse_serialize _ hwtrue]
  rw [clean_mergeT _ (cleanForest_idem _)]

example : parseMarkdownParts "# A\n## Pattern\n<b>x</b>\n".data =
    [⟨"A".data, "<b>x</b>".data⟩] := by decide

example : targetMap [⟨"a".data, "p1".data⟩, ⟨"a".data, "p2".data⟩] "a".data =
    some "p2".data := by decide

example : sortParts [⟨"a".data, "xx".data⟩, ⟨"b".data, "yyy".data⟩] =
    [⟨"b".data, "yyy".data⟩, ⟨"a".data, "xx".data⟩] := by decide

end Migration
